import Mathlib

/-!
# Style-manager `Sector` model (`src/style_manager/model/Sector.js`)

A shallow embedding of the `Sector` class: JavaScript values are a small
JSON-like datatype, objects are ordered key/value lists, and every method that
mutates its arguments becomes a function that returns the updated values.

Scope of the embedding.

* Objects are *values*: an object that JavaScript would share between two slots
  is a separate copy in each. On inputs in which no object occurs twice this is
  exact for every run in which an override entry matches at most one base entry
  at each nesting level, and it is always exact for the length of the result,
  for the keys `property`/`id` of its entries and for the appended entries.
* `==` is embedded on `undefined`, `null` and primitives of equal type (the
  `@typedef` declares identifiers as strings); coercion between types and
  object identity are outside the embedding.
* A `TypeError` raised by the host (`x.property` with `x` null or undefined)
  is the result `Err.typeError`.
* Strings are sequences of code points. The host `toLowerCase` is exact on ASCII;
  above ASCII it is a parameter that lower-cases each code point in its context
  (the code points before and after it), as the host does for the final sigma.
-/

namespace SectorModel

/-- JavaScript values that occur in sector and property descriptors. -/
inductive Val where
  | undefined : Val
  | null : Val
  | bool (b : Bool) : Val
  | num (n : Int) : Val
  | str (s : String) : Val
  | arr (items : List Val) : Val
  | obj (fields : List (String × Val)) : Val

/-- Own enumerable properties of an object, in insertion order. -/
abbrev Fields := List (String × Val)

/-- Faults: a host `TypeError`, and exhaustion of the recursion budget of the embedding. -/
inductive Err where
  | typeError : Err
  | outOfFuel : Err
  deriving DecidableEq, Repr

/-- Own property `k` of a field list (`none`: no such key). -/
def own : Fields → String → Option Val
  | [], _ => none
  | (k', v) :: rest, k => if k' = k then some v else own rest k

/-- Assignment `o[k] = v` on a field list: overwrite in place or append. -/
def setField : Fields → String → Val → Fields
  | [], k, v => [(k, v)]
  | (k', v') :: rest, k, v => if k' = k then (k, v) :: rest else (k', v') :: setField rest k v

/-- Property read `v.k`: a `TypeError` on `undefined`/`null`, `undefined` for a missing key. -/
def getField : Val → String → Except Err Val
  | .undefined, _ => .error .typeError
  | .null, _ => .error .typeError
  | .obj fs, k => .ok ((own fs k).getD .undefined)
  | .arr xs, k => .ok (if k = "length" then .num xs.length else .undefined)
  | .str s, k => .ok (if k = "length" then .num s.length else .undefined)
  | _, _ => .ok .undefined

/-- Property write `v.k = x` (only objects carry the keys used here). -/
def assign : Val → String → Val → Val
  | .obj fs, k, x => .obj (setField fs k x)
  | v, _, _ => v

/-- JavaScript truthiness (`ToBoolean`). -/
def truthy : Val → Bool
  | .undefined => false
  | .null => false
  | .bool b => b
  | .num n => n != 0
  | .str s => s != ""
  | .arr _ => true
  | .obj _ => true

/-- Abstract equality `a == b` on `undefined`, `null` and primitives of equal type. -/
def looseEq : Val → Val → Bool
  | .undefined, .undefined => true
  | .undefined, .null => true
  | .null, .undefined => true
  | .null, .null => true
  | .bool a, .bool b => a == b
  | .num a, .num b => a == b
  | .str a, .str b => a == b
  | _, _ => false

/-- Elements of an array value (`[]` for anything that is not an array). -/
def items : Val → List Val
  | .arr xs => xs
  | _ => []

/-- The `length` property as read by `x.length` on a non-null value. -/
def jsLength : Val → Val
  | .arr xs => .num xs.length
  | .str s => .num s.length
  | .obj fs => (own fs "length").getD .undefined
  | _ => .undefined

/-- Copy of every own key of `source` onto `target` (`target[key] = source[key]` for each
key of `source`, in order), as done by underscore `extend` and by object spread. -/
def copyInto (target source : Fields) : Fields :=
  source.foldl (fun acc kv => setField acc kv.1 ((own source kv.1).getD .undefined)) target

/-- Underscore `extend(obj, source)`: copy every own key of `source` onto `obj`. A source
that is not an object has no keys to copy. -/
def extend : Val → Val → Val
  | .obj fs, .obj gs => .obj (copyInto fs gs)
  | o, _ => o

/-- A JavaScript array with holes, as built by `isolated[j] = x` and `isolated.push(x)`. -/
abbrev Sparse := List (Option Val)

/-- Indexed store `a[j] = v`, growing the array with holes when `j` is past the end. -/
def Sparse.setAt (a : Sparse) (j : Nat) (v : Val) : Sparse :=
  if j < a.length then a.set j (some v)
  else a ++ List.replicate (j - a.length) none ++ [some v]

/-- The call `a.push(v)`. -/
def Sparse.push (a : Sparse) (v : Val) : Sparse := a ++ [some v]

/-- The call `a.filter(i => i)`: holes are skipped, falsy entries dropped. -/
def Sparse.compact (a : Sparse) : List Val :=
  a.filterMap (fun o => match o with
    | some v => if truthy v then some v else none
    | none => none)

/-- Child collection of a sector.
Modelled from the spec: `Properties` (`./Properties`) is not part of the sources; the
spec says the resulting list is wrapped in a child collection object, so the collection
is the list of descriptors handed to its constructor. -/
structure Properties where
  models : List Val

/-- Value of the `properties` attribute: the literal array before `initialize`, the child
collection after it. -/
inductive PropsAttr where
  | array (items : List Val) : PropsAttr
  | collection (c : Properties) : PropsAttr

/-- Attributes of a sector (`this.get(...)`). -/
structure Sector where
  id : String
  name : String
  «open» : Val
  buildProps : Val
  extendBuilded : Val
  properties : PropsAttr

/-- The method `defaults()`. -/
def defaults : Sector :=
  { id := "", name := "", «open» := .bool true, buildProps := .str "",
    extendBuilded := .num 1, properties := .array [] }

/-- The read `this.get('properties')` used as an array of override entries (`mProps.length`
and `mProps[i]`); `extendProperties` only runs on the literal array. A collection has a
`length` but no indexed entries. -/
def Sector.propertyList (self : Sector) : List Val :=
  match self.properties with
  | .array xs => xs
  | .collection c => List.replicate c.models.length .undefined

/-- Result of one pass of the inner loop: the scanned slots, the (possibly updated)
override entry, the isolated array and the `found` flag. -/
abbrev ScanState := List Val × Val × Sparse × Bool

/-- The test `mProp.property == prop.property || mProp.id == prop.property`. -/
def matchTest (mProp prop : Val) : Except Err Bool := do
  let mKey ← getField mProp "property"
  let pKey ← getField prop "property"
  let mId ← getField mProp "id"
  pure (looseEq mKey pKey || looseEq mId pKey)

/-- The nested step of a match: when the override entry declares a non-empty `properties`
list, that list is replaced by the recursive merge with `prop.properties || []`. Returns
the override entry after the step. -/
def mergeNested (recur : List Val → List Val → Except Err (List Val)) (mProp prop : Val) :
    Except Err Val := do
  let mPProps ← getField mProp "properties"
  if truthy mPProps && truthy (jsLength mPProps) then
    let base ← getField prop "properties"
    let nested ← recur (items (if truthy base then base else .arr [])) (items mPProps)
    pure (assign mProp "properties" (.arr nested))
  else
    pure mProp

/-- The value stored by `props[j] = ext ? extend(prop, mProp) : mProp`. -/
def mergeEntry (ext prop mProp : Val) : Val :=
  if truthy ext then extend prop mProp else mProp

/-- Inner loop of `extendProperties` (`for (var j = 0; j < pLen; j++)`), run over the
slots `props[j], props[j+1], ...` still to be visited. `recur` is the recursive call for
nested lists. -/
def scan (recur : List Val → List Val → Except Err (List Val)) (ext : Val) :
    Nat → List Val → Val → Sparse → Bool → Except Err ScanState
  | _, [], mProp, isolated, found => .ok ([], mProp, isolated, found)
  | j, prop :: rest, mProp, isolated, found => do
    if (← matchTest mProp prop) then
      let mProp' ← mergeNested recur mProp prop
      let merged := mergeEntry ext prop mProp'
      let (rest', mProp'', isolated', found') ←
        scan recur ext (j + 1) rest mProp' (isolated.setAt j merged) true
      pure (merged :: rest', mProp'', isolated', found')
    else
      let (rest', mProp'', isolated', found') ← scan recur ext (j + 1) rest mProp isolated found
      pure (prop :: rest', mProp'', isolated', found')

/-- Outer loop of `extendProperties` (`for (var i = 0; i < len; i++)`): `props` is the
array being rewritten, whose first `pLen` slots are the ones the inner loop visits. -/
def outer (recur : List Val → List Val → Except Err (List Val)) (ext : Val) (pLen : Nat) :
    List Val → List Val → Sparse → Except Err (List Val × Sparse)
  | [], props, isolated => .ok (props, isolated)
  | mProp :: more, props, isolated => do
    let (head, mProp', isolated', found) ←
      scan recur ext 0 (props.take pLen) mProp isolated false
    let props' := head ++ props.drop pLen
    if !found then
      outer recur ext pLen more (props' ++ [mProp']) (isolated'.push mProp')
    else
      outer recur ext pLen more props' isolated'

/-- Body of `extendProperties`, with the recursive call passed in. -/
def extendWith (recur : List Val → List Val → Except Err (List Val)) (self : Sector)
    (props : List Val) (moProps : Option (List Val)) (ex : Val) : Except Err (List Val) := do
  let pLen := props.length
  let mProps := match moProps with
    | some l => l
    | none => self.propertyList
  let ext := self.extendBuilded
  let (props', isolated) ← outer recur ext pLen mProps props []
  pure (if truthy ex then isolated.compact else props')

/-- The method `extendProperties(props, moProps, ex)`. The first argument bounds the depth
of nested recursive calls. -/
def extendProperties (self : Sector) :
    Nat → List Val → Option (List Val) → Val → Except Err (List Val)
  | 0, props, moProps, ex =>
    extendWith (fun _ _ => .error .outOfFuel) self props moProps ex
  | fuel + 1, props, moProps, ex =>
    extendWith (fun base over => extendProperties self fuel base (some over) (.num 1))
      self props moProps ex

/-- The property factory (`./PropertyFactory`, not part of the sources), taken as a
parameter: `build` receives the argument of `propFactory.build(...)` (a name or an array
of names) and returns the array of template objects it builds. -/
structure PropertyFactory where
  build : Val → List Fields

/-- Lower-casing of the code points above ASCII by the host `toLowerCase`, taken as a
parameter (the Unicode case tables are not part of the sources). The host lower-cases a code
point in its context (a capital sigma that ends a word becomes the final sigma, elsewhere
the plain sigma), so the table receives the code points that stand before the code point in
the string, the code point itself, and the code points that stand after it; it gives a
non-empty sequence, as its first code point and the rest. -/
abbrev CaseTable := List Char → Char → List Char → Char × List Char

/-- Lower-casing of the code point `c` standing between `before` and `after`: an ASCII code
point by the ASCII rule, whatever surrounds it, any other by the table. -/
def lowerChar (tbl : CaseTable) (before : List Char) (c : Char) (after : List Char) :
    List Char :=
  if c.toNat < 128 then [c.toLower] else (tbl before c after).1 :: (tbl before c after).2

/-- Lower-casing of the code points `cs` that follow the code points `before` in a string. -/
def lowerFrom (tbl : CaseTable) : List Char → List Char → List Char
  | _, [] => []
  | before, c :: after => lowerChar tbl before c after ++ lowerFrom tbl (before ++ [c]) after

/-- The call `s.toLowerCase()`. -/
def toLowerCase (tbl : CaseTable) (s : String) : String :=
  String.mk (lowerFrom tbl [] s.data)

/-- The call `s.replace(/ /g, '_')`. -/
def replaceSpaces (s : String) : String :=
  String.mk (s.data.map (fun c => if c = ' ' then '_' else c))

/-- The method `buildProperties(props)`. -/
def buildProperties (factory : PropertyFactory) (props : Val) : List Val :=
  let buildP := if truthy props then props else .arr []
  if !truthy (jsLength buildP) then [] else (factory.build buildP).map Val.obj

/-- Own enumerable keys of a value as used by destructuring and spread in `checkExtend`
(objects only; the other values have no `extend` key). -/
def ownFields : Val → Fields
  | .obj fs => fs
  | _ => []

/-- The method `checkExtend(prop)`. -/
def checkExtend (factory : PropertyFactory) (prop : Val) : Val :=
  let src := if truthy prop then prop else .obj []
  let extend := (own (ownFields src) "extend").getD .undefined
  let rest := (ownFields src).filter (fun kv => kv.1 != "extend")
  if truthy extend then
    let built := (buildProperties factory (.arr [extend])).head?.getD .undefined
    let template := if truthy built then built else .obj []
    .obj (copyInto (copyInto [] (ownFields template)) rest)
  else prop

/-- Underscore `isString`. -/
def isString : Val → Bool
  | .str _ => true
  | _ => false

/-- The method `initialize(prp, opts)` (the name is reserved in Lean); `prp` holds the
attributes after the defaults have been applied. Returns the sector after construction. -/
def initSector (tbl : CaseTable) (factory : PropertyFactory) (fuel : Nat) (prp : Sector) :
    Except Err Sector := do
  let builded := buildProperties factory prp.buildProps
  let name := if truthy (.str prp.name) then prp.name else ""
  let self : Sector :=
    if !truthy (.str prp.id) then { prp with id := toLowerCase tbl (replaceSpaces name) }
    else prp
  let props ←
    if !truthy (.arr builded) then
      pure ((self.propertyList.map (fun prop =>
        if isString prop then (buildProperties factory prop).head?.getD .undefined
        else prop)).filter truthy)
    else
      extendProperties self fuel builded none .undefined
  let props := props.map (checkExtend factory)
  let propsModel : Properties := { models := props }
  pure { self with properties := .collection propsModel }

/-- The method `getId()`. -/
def Sector.getId (self : Sector) : String := self.id

/-- The method `getName()`. -/
def Sector.getName (self : Sector) : String := self.name

/-- The method `setName(value)`. -/
def Sector.setName (self : Sector) (value : String) : Sector := { self with name := value }

/-- The method `isOpen()`. -/
def Sector.isOpen (self : Sector) : Bool := truthy self.«open»

/-- The method `setOpen(value)`. -/
def Sector.setOpen (self : Sector) (value : Val) : Sector := { self with «open» := value }

/-- The method `getProperties()`. -/
def Sector.getProperties (self : Sector) : List Val :=
  match self.properties with
  | .collection c => c.models
  | .array xs => xs

/-- Strict equality `a === b` on `undefined`, `null` and primitives (object identity is
outside the embedding). -/
def strictEq : Val → Val → Bool
  | .undefined, .undefined => true
  | .null, .null => true
  | .bool a, .bool b => a == b
  | .num a, .num b => a == b
  | .str a, .str b => a == b
  | _, _ => false

/-- The method `getProperty(id)`. `get` is the attribute read `prop.get(...)` of the property
models held by the child collection (the model class is not part of the sources), taken as a
parameter. The entries of a literal array are plain values without a `get` method, so the
filter callback faults on the first of them. -/
def Sector.getProperty (get : Val → String → Val) (self : Sector) (id : Val) : Except Err Val :=
  match self.properties with
  | .array [] => .ok .null
  | .array (_ :: _) => .error .typeError
  | .collection _ =>
    let first := (self.getProperties.filter (fun prop => strictEq (get prop "id") id)).head?.getD
      .undefined
    .ok (if truthy first then first else .null)

/-! ## Descriptors and the specification of the merge -/

/-- Value of `v.k` when the read does not fault (`undefined` when it does). -/
def peek (v : Val) (k : String) : Val :=
  match getField v k with
  | .ok x => x
  | .error _ => .undefined

/-- Objects. -/
def isObj : Val → Bool
  | .obj _ => true
  | _ => false

/-- An identifier key as the `@typedef` declares it: absent, `undefined`, `null` or a string. -/
def keyOk : Option Val → Bool
  | none => true
  | some .undefined => true
  | some .null => true
  | some (.str _) => true
  | some _ => false

/-- Descriptor objects: `isDesc n v` holds when `v` is an object whose keys `property` and
`id` are identifiers, whose `properties` key is absent or an array of descriptor objects, and
whose nested `properties` arrays go fewer than `n` levels deep (`isDesc 1 v`: every nested
array is empty). -/
def isDesc : Nat → Val → Bool
  | 0, _ => false
  | n + 1, .obj fs =>
    keyOk (own fs "property") && keyOk (own fs "id") &&
      (match own fs "properties" with
        | none => true
        | some (.arr xs) => xs.all (isDesc n)
        | some _ => false)
  | _ + 1, _ => false

/-- The match test of `extendProperties` for an override entry `m` against the key
(`property`) of a base entry. -/
def matchesKey (m key : Val) : Bool :=
  looseEq (peek m "property") key || looseEq (peek m "id") key

/-- Key (`property`) of a base entry with key `key` once the override entry `m` has been
merged into it: with the flag set the entry keeps its key unless `m` has a `property` of its
own; with the flag unset the entry is replaced by `m`. -/
def keyAfter (ext m key : Val) : Val :=
  if truthy ext then (own (ownFields m) "property").getD key else peek m "property"

/-- Key of a base entry with key `key` after the override entry `m` has been processed. -/
def stepKey (ext m key : Val) : Val :=
  if matchesKey m key then keyAfter ext m key else key

/-- Keys of the base entries after the override entry `m` has been processed. -/
def stepKeys (ext m : Val) (keys : List Val) : List Val :=
  keys.map (stepKey ext m)

/-- Key of a base entry with key `key` after all the override entries have been processed. -/
def finalKey (ext : Val) : Val → List Val → Val
  | key, [] => key
  | key, m :: more => finalKey ext (stepKey ext m key) more

/-- Whether some override entry matches, when its turn comes, the base entry that starts
with key `key`. -/
def touchedKey (ext : Val) : Val → List Val → Bool
  | _, [] => false
  | key, m :: more => matchesKey m key || touchedKey ext (stepKey ext m key) more

/-- Override entries that match none of the base entries when their turn comes: `keys` are
the keys of the base entries as they then stand. -/
def unmatched (ext : Val) : List Val → List Val → List Val
  | _, [] => []
  | keys, m :: more =>
    if keys.any (matchesKey m) then unmatched ext (stepKeys ext m keys) more
    else m :: unmatched ext keys more

/-- The override entry `m'` is `m` up to the value of its `properties` key. -/
def Upd (m m' : Val) : Prop := m' = m ∨ ∃ x, m' = assign m "properties" x

/-- The guard `mPProps && mPProps.length` of the nested step. -/
def hasNested (m : Val) : Bool :=
  truthy (peek m "properties") && truthy (jsLength (peek m "properties"))

/-- The first argument `prop.properties || []` of the nested call. -/
def baseItems (p : Val) : List Val :=
  items (if truthy (peek p "properties") then peek p "properties" else .arr [])

/-- Specification of the nested call on descriptor lists of depth below `n`. -/
def RecSpec (n : Nat) (recur : List Val → List Val → Except Err (List Val)) : Prop :=
  ∀ b o, (∀ x ∈ b, isDesc n x = true) → (∀ x ∈ o, isDesc n x = true) → o ≠ [] →
    ∃ r, recur b o = .ok r ∧ ∀ x ∈ r, isDesc n x = true

/-- Key (`property`) of a base entry. -/
def keyOf (v : Val) : Val := peek v "property"

/-- Read of slot `i` of an array with holes (`none`: a hole, or past the end). -/
def Sparse.at (a : Sparse) (i : Nat) : Option Val := (a[i]?).join

/-- What one pass of the inner loop does: `res` is the result of scanning the slots `todo`
(the slots from index `j` on) with the override entry `m`. -/
structure ScanFacts (n : Nat) (ext : Val) (j : Nat) (todo : List Val) (m : Val) (iso : Sparse)
    (found : Bool) (res : ScanState) : Prop where
  found_eq : res.2.2.2 = (found || todo.any (fun p => matchesKey m (keyOf p)))
  length_eq : res.1.length = todo.length
  desc : ∀ p ∈ res.1, isDesc (n + 1) p = true
  desc_m : isDesc (n + 1) res.2.1 = true
  upd : Upd m res.2.1
  keys : res.1.map keyOf = stepKeys ext m (todo.map keyOf)
  no_match : todo.any (fun p => matchesKey m (keyOf p)) = false → res.2.1 = m ∧ res.2.2.1 = iso
  kept : ∀ (t : Nat) (p : Val), todo[t]? = some p → matchesKey m (keyOf p) = false → (res.1 : List Val)[t]? = some p
  iso_len : iso.length ≤ res.2.2.1.length
  iso_out : ∀ i : Nat, i < j ∨ j + todo.length ≤ i → res.2.2.1.at i = iso.at i
  iso_in : ∀ (t : Nat) (p : Val), todo[t]? = some p →
    res.2.2.1.at (j + t) =
      if matchesKey m (keyOf p) then (res.1 : List Val)[t]? else iso.at (j + t)

/-- What the outer loop does: `base'` and `iso'` are the first `pLen` slots and the isolated
array after the override entries `ms` have been processed, starting from the slots `base` and
the isolated array `iso`. -/
structure OuterFacts (n : Nat) (ext : Val) (ms base : List Val) (iso : Sparse)
    (base' : List Val) (iso' : Sparse) : Prop where
  length_eq : base'.length = base.length
  desc : ∀ p ∈ base', isDesc (n + 1) p = true
  keys : base'.map keyOf = base.map (fun p => finalKey ext (keyOf p) ms)
  kept : ∀ (i : Nat) (p : Val), base[i]? = some p → touchedKey ext (keyOf p) ms = false →
    base'[i]? = some p
  iso_at : ∀ (i : Nat) (v : Val), iso'.at i = some v →
    (∃ p, base[i]? = some p ∧ touchedKey ext (keyOf p) ms = true ∧ base'[i]? = some v) ∨
    ((∀ p, base[i]? = some p → touchedKey ext (keyOf p) ms = false) ∧
      (iso.at i = some v ∨ (v ∈ unmatched ext (base.map keyOf) ms ∧ iso.length ≤ i)))
  iso_keep : ∀ (i : Nat) (v : Val), iso.at i = some v →
    (∀ p, base[i]? = some p → touchedKey ext (keyOf p) ms = false) → iso'.at i = some v
  iso_touched : ∀ (i : Nat) (p : Val), base[i]? = some p →
    touchedKey ext (keyOf p) ms = true → iso'.at i = base'[i]?

/-- The nested call made by `extendProperties` with recursion budget `fuel`. -/
def recurOf (self : Sector) : Nat → List Val → List Val → Except Err (List Val)
  | 0 => fun _ _ => .error .outOfFuel
  | fuel + 1 => fun base over => extendProperties self fuel base (some over) (.num 1)

/-- Following the words of the specification: the override entries that match no entry of
the base list as it is handed in. -/
def unmatchedStatic (props moProps : List Val) : List Val :=
  moProps.filter (fun m => !(props.any (fun p => matchesKey m (keyOf p))))

/-- The key (`property`) of an entry when it is a string (`""` otherwise). -/
def keyString (v : Val) : String :=
  match keyOf v with
  | .str s => s
  | _ => ""

/-- The entry has a string as key (`property`). -/
def strKey (v : Val) : Bool :=
  match keyOf v with
  | .str _ => true
  | _ => false

/-- The `id` of the entry is absent or equal to its key (`property`). -/
def idOk (v : Val) : Bool :=
  match own (ownFields v) "id", keyOf v with
  | none, _ => true
  | some (.str a), .str b => a == b
  | _, _ => false

/-- Descriptor objects with unambiguous identifiers: `wellKeyed n v` holds when `v` is an
object with a string key (`property`) and an `id` absent or equal to it, whose `properties`
key is absent or an array of such objects with pairwise distinct keys, nested fewer than `n`
levels deep. -/
def wellKeyed : Nat → Val → Bool
  | 0, _ => false
  | n + 1, .obj fs =>
    strKey (.obj fs) && idOk (.obj fs) &&
      (match own fs "properties" with
        | none => true
        | some (.arr xs) => decide ((xs.map keyString).Nodup) && xs.all (wellKeyed n)
        | some _ => false)
  | _ + 1, _ => false

/-- Lists of well-keyed descriptor objects with pairwise distinct keys. -/
def WellKeyedList (n : Nat) (l : List Val) : Prop :=
  (l.map keyString).Nodup ∧ ∀ x ∈ l, wellKeyed n x = true

/-- Specification of the nested call on lists of well-keyed descriptor objects. -/
def RecKeyed (n : Nat) (recur : List Val → List Val → Except Err (List Val)) : Prop :=
  ∀ b o r, WellKeyedList n b → WellKeyedList n o → recur b o = .ok r → WellKeyedList n r

/-! ## Field lists -/

theorem own_setField (fs : Fields) (k k' : String) (v : Val) :
    own (setField fs k v) k' = if k = k' then some v else own fs k' := by
  induction fs with
  | nil => simp [setField, own]
  | cons kv rest ih =>
    obtain ⟨a, b⟩ := kv
    by_cases h : a = k
    · subst h
      by_cases h2 : a = k' <;> simp [setField, own, h2]
    · by_cases h2 : k = k'
      · subst h2
        simp [setField, own, h, ih]
      · by_cases h3 : a = k'
        · subst h3
          simp [setField, own, h, h2]
        · simp [setField, own, h, h2, h3, ih]

theorem own_isSome_iff (fs : Fields) (k : String) :
    (own fs k).isSome = true ↔ k ∈ fs.map Prod.fst := by
  induction fs with
  | nil => simp [own]
  | cons kv rest ih =>
    obtain ⟨a, b⟩ := kv
    by_cases h : a = k
    · simp [own, h]
    · simp [own, h, ih]
      intro h2; exact absurd h2.symm h

theorem own_foldl_set (g : String → Val) (l : Fields) (fs : Fields) (k : String) :
    own (l.foldl (fun acc kv => setField acc kv.1 (g kv.1)) fs) k =
      if k ∈ l.map Prod.fst then some (g k) else own fs k := by
  induction l generalizing fs with
  | nil => simp
  | cons kv rest ih =>
    simp only [List.foldl_cons, ih, own_setField, List.map_cons, List.mem_cons]
    by_cases h1 : k ∈ rest.map Prod.fst
    · simp [h1]
    · by_cases h2 : kv.1 = k
      · simp [h1, h2]
      · have : ¬ k = kv.1 := fun h => h2 h.symm
        simp [h1, h2, this]

theorem own_copyInto (fs gs : Fields) (k : String) :
    own (copyInto fs gs) k = if (own gs k).isSome then own gs k else own fs k := by
  unfold copyInto
  rw [own_foldl_set (fun k => (own gs k).getD .undefined)]
  by_cases h : k ∈ gs.map Prod.fst
  · have h' := (own_isSome_iff gs k).2 h
    simp only [h, h', if_true]
    cases hh : own gs k with
    | none => simp [hh] at h'
    | some v => simp
  · have h' : (own gs k).isSome = false := by
      cases hh : (own gs k).isSome
      · rfl
      · exact absurd ((own_isSome_iff gs k).1 hh) h
    simp [h, h']

theorem own_filter_ne (fs : Fields) (x k : String) :
    own (fs.filter (fun kv => kv.1 != x)) k = if k = x then none else own fs k := by
  induction fs with
  | nil => simp [own]
  | cons kv rest ih =>
    obtain ⟨a, b⟩ := kv
    by_cases h : a = x
    · subst h
      have e : List.filter (fun kv => kv.1 != a) ((a, b) :: rest)
          = List.filter (fun kv => kv.1 != a) rest := by
        simp [List.filter]
      rw [e, ih]
      by_cases h2 : k = a
      · simp [h2]
      · have : ¬ a = k := fun h => h2 h.symm
        simp [own, h2, this]
    · have e : List.filter (fun kv => kv.1 != x) ((a, b) :: rest)
          = (a, b) :: List.filter (fun kv => kv.1 != x) rest := by
        have hb : (a != x) = true := by simpa using h
        simp [List.filter, hb]
      rw [e]
      by_cases h2 : a = k
      · subst h2; simp [own, h]
      · simp [own, h2, ih]

@[simp] theorem truthy_obj (fs : Fields) : truthy (.obj fs) = true := rfl
@[simp] theorem truthy_arr (xs : List Val) : truthy (.arr xs) = true := rfl
@[simp] theorem truthy_undefined : truthy .undefined = false := rfl
@[simp] theorem truthy_null : truthy .null = false := rfl

theorem checkExtend_obj (factory : PropertyFactory) (fs : Fields) (e : Val)
    (hown : own fs "extend" = some e) (ht : truthy e = true) :
    checkExtend factory (.obj fs) =
      .obj (copyInto (copyInto [] ((factory.build (.arr [e])).head?.getD []))
        (fs.filter (fun kv => kv.1 != "extend"))) := by
  have hb : buildProperties factory (.arr [e]) = (factory.build (.arr [e])).map Val.obj := by
    simp [buildProperties, jsLength, truthy]
  unfold checkExtend
  simp only [truthy_obj, if_true, ownFields, hown, Option.getD_some, ht, hb]
  cases hbuild : factory.build (.arr [e]) with
  | nil => simp [ownFields]
  | cons t ts => simp [ownFields]

/-! ## Construction -/

theorem outer_zero (recur : List Val → List Val → Except Err (List Val)) (ext : Val)
    (ms props : List Val) (iso : Sparse) :
    outer recur ext 0 ms props iso = .ok (props ++ ms, iso ++ ms.map some) := by
  induction ms generalizing props iso with
  | nil => simp [outer]
  | cons m more ih =>
    simp [outer, scan, bind, Except.bind, ih, Sparse.push]

theorem extendProperties_nil_base (self : Sector) (fuel : Nat) (moProps : Option (List Val)) :
    extendProperties self fuel [] moProps .undefined =
      .ok (match moProps with
        | some l => l
        | none => self.propertyList) := by
  cases fuel <;> simp [extendProperties, extendWith, outer_zero, bind, Except.bind, pure, Except.pure]

theorem initSector_ok_of_no_builtins (tbl : CaseTable) (factory : PropertyFactory) (fuel : Nat)
    (prp : Sector) (hb : buildProperties factory prp.buildProps = []) :
    ∃ s, initSector tbl factory fuel prp = .ok s := by
  simp [initSector, hb, extendProperties_nil_base, bind, Except.bind, pure, Except.pure]

theorem initSector_id (tbl : CaseTable) (factory : PropertyFactory) (fuel : Nat)
    (prp s : Sector) (h : initSector tbl factory fuel prp = .ok s) :
    s.id = (if prp.id = "" then toLowerCase tbl (replaceSpaces prp.name) else prp.id)
    ∧ s.name = prp.name := by
  have hname : (if truthy (.str prp.name) = true then prp.name else "") = prp.name := by
    by_cases hn : prp.name = "" <;> simp [truthy, hn]
  simp only [initSector, hname, truthy_arr, Bool.not_true, Bool.false_eq_true, if_false, bind,
    Except.bind, pure, Except.pure] at h
  split at h
  · exact absurd h (by simp)
  · injection h with h
    subst h
    by_cases hid : prp.id = "" <;> simp [truthy, hid]


theorem lowerChar_ne_nil (tbl : CaseTable) (before : List Char) (c : Char)
    (after : List Char) : lowerChar tbl before c after ≠ [] := by
  unfold lowerChar
  split <;> simp

theorem lowerFrom_eq_nil (tbl : CaseTable) (before cs : List Char)
    (h : lowerFrom tbl before cs = []) : cs = [] := by
  cases cs with
  | nil => rfl
  | cons c cs =>
    simp only [lowerFrom] at h
    exact absurd (List.append_eq_nil.1 h).1 (lowerChar_ne_nil tbl before c cs)

theorem lowerFrom_ascii (tbl : CaseTable) (cs : List Char) :
    ∀ before : List Char, (∀ c ∈ cs, c.toNat < 128) →
      lowerFrom tbl before cs = cs.map Char.toLower := by
  induction cs with
  | nil => intro _ _; rfl
  | cons c cs ih =>
    intro before h
    have hc : c.toNat < 128 := h c (List.mem_cons_self _ _)
    have ih' := ih (before ++ [c]) (fun d hd => h d (List.mem_cons_of_mem _ hd))
    simp [lowerFrom, lowerChar, hc, ih']

theorem toLowerCase_replaceSpaces_data (tbl : CaseTable) (s : String) :
    (toLowerCase tbl (replaceSpaces s)).data =
      lowerFrom tbl [] (s.data.map (fun c => if c = ' ' then '_' else c)) := rfl

theorem toLowerCase_replaceSpaces_ascii (tbl : CaseTable) (s : String)
    (h : ∀ c ∈ s.data, c.toNat < 128) :
    (toLowerCase tbl (replaceSpaces s)).data =
      s.data.map (fun c => if c = ' ' then '_' else c.toLower) := by
  have hu : ('_' : Char).toNat < 128 := by decide
  have hl : ('_' : Char).toLower = '_' := by decide
  rw [toLowerCase_replaceSpaces_data, lowerFrom_ascii, List.map_map]
  · apply List.map_congr_left
    intro c _
    by_cases hc : c = ' ' <;> simp [hc, hl]
  · intro c hc
    obtain ⟨d, hd, rfl⟩ := List.mem_map.1 hc
    by_cases hs : d = ' '
    · simp [hs, hu]
    · simpa [hs] using h d hd

/-- The table expresses the context-sensitive lower-casing of the host: the capital sigma
(U+03A3) becomes the final sigma (U+03C2) at the end of a word and the plain sigma (U+03C3)
elsewhere, so that "ΑΣΣ" gives "ασς". -/
theorem toLowerCase_final_sigma :
    toLowerCase (fun before c after =>
        if c = Char.ofNat 0x3A3 then
          (if after.isEmpty && !before.isEmpty then (Char.ofNat 0x3C2, [])
            else (Char.ofNat 0x3C3, []))
        else if c = Char.ofNat 0x391 then (Char.ofNat 0x3B1, []) else (c, []))
      (String.mk [Char.ofNat 0x391, Char.ofNat 0x3A3, Char.ofNat 0x3A3])
    = String.mk [Char.ofNat 0x3B1, Char.ofNat 0x3C3, Char.ofNat 0x3C2] := by
  rfl

/-! ## Descriptor objects -/

theorem isDesc_isObj {n : Nat} {v : Val} (h : isDesc n v = true) : ∃ fs, v = .obj fs := by
  cases n with
  | zero => simp [isDesc] at h
  | succ n =>
    cases v <;> simp [isDesc] at h
    exact ⟨_, rfl⟩

theorem isDesc_succ_obj (n : Nat) (fs : Fields) :
    isDesc (n + 1) (.obj fs) = true ↔
      keyOk (own fs "property") = true ∧ keyOk (own fs "id") = true ∧
      (own fs "properties" = none ∨
        ∃ xs, own fs "properties" = some (.arr xs) ∧ ∀ x ∈ xs, isDesc n x = true) := by
  simp only [isDesc, Bool.and_eq_true]
  constructor
  · rintro ⟨⟨h1, h2⟩, h3⟩
    refine ⟨h1, h2, ?_⟩
    cases hp : own fs "properties" with
    | none => exact Or.inl rfl
    | some v =>
      rw [hp] at h3
      cases v <;> simp at h3
      exact Or.inr ⟨_, rfl, h3⟩
  · rintro ⟨h1, h2, h3⟩
    refine ⟨⟨h1, h2⟩, ?_⟩
    rcases h3 with h3 | ⟨xs, h3, h4⟩
    · simp [h3]
    · simp only [h3, List.all_eq_true]
      exact h4

theorem isDesc_mono {n : Nat} : ∀ {v : Val}, isDesc n v = true → isDesc (n + 1) v = true := by
  induction n with
  | zero => intro v h; simp [isDesc] at h
  | succ n ih =>
    intro v h
    obtain ⟨fs, rfl⟩ := isDesc_isObj h
    rw [isDesc_succ_obj] at h ⊢
    obtain ⟨h1, h2, h3⟩ := h
    refine ⟨h1, h2, ?_⟩
    rcases h3 with h3 | ⟨xs, h3, h4⟩
    · exact Or.inl h3
    · exact Or.inr ⟨xs, h3, fun x hx => ih (h4 x hx)⟩

theorem isDesc_mono_le {n m : Nat} (hnm : n ≤ m) {v : Val} (h : isDesc n v = true) :
    isDesc m v = true := by
  induction hnm with
  | refl => exact h
  | step _ ih => exact isDesc_mono ih

theorem isDesc_assign {n : Nat} {gs : Fields} {r : List Val}
    (h : isDesc (n + 1) (.obj gs) = true) (hr : ∀ x ∈ r, isDesc n x = true) :
    isDesc (n + 1) (assign (.obj gs) "properties" (.arr r)) = true := by
  rw [isDesc_succ_obj] at h
  obtain ⟨h1, h2, _⟩ := h
  simp only [assign]
  rw [isDesc_succ_obj]
  refine ⟨?_, ?_, Or.inr ⟨r, ?_, hr⟩⟩
  · rw [own_setField]; simpa using h1
  · rw [own_setField]; simpa using h2
  · rw [own_setField]; simp

theorem isDesc_extend {n : Nat} {fs gs : Fields}
    (hf : isDesc (n + 1) (.obj fs) = true) (hg : isDesc (n + 1) (.obj gs) = true) :
    isDesc (n + 1) (extend (.obj fs) (.obj gs)) = true := by
  rw [isDesc_succ_obj] at hf hg
  obtain ⟨f1, f2, f3⟩ := hf
  obtain ⟨g1, g2, g3⟩ := hg
  simp only [extend]
  rw [isDesc_succ_obj]
  have key : ∀ k, own (copyInto fs gs) k = own gs k ∨ own (copyInto fs gs) k = own fs k := by
    intro k
    rw [own_copyInto]
    by_cases h : (own gs k).isSome = true
    · left; simp [h]
    · right; simp [h]
  refine ⟨?_, ?_, ?_⟩
  · rcases key "property" with h | h <;> rw [h] <;> assumption
  · rcases key "id" with h | h <;> rw [h] <;> assumption
  · rcases key "properties" with h | h <;> rw [h] <;> assumption

theorem isDesc_mergeEntry {n : Nat} {ext p m : Val}
    (hp : isDesc (n + 1) p = true) (hm : isDesc (n + 1) m = true) :
    isDesc (n + 1) (mergeEntry ext p m) = true := by
  obtain ⟨fs, rfl⟩ := isDesc_isObj hp
  obtain ⟨gs, rfl⟩ := isDesc_isObj hm
  unfold mergeEntry
  split
  · exact isDesc_extend hp hm
  · exact hm

/-! ## The inner loop -/

theorem matchTest_obj (gs fs : Fields) :
    matchTest (.obj gs) (.obj fs) = .ok (matchesKey (.obj gs) (peek (.obj fs) "property")) := by
  simp [matchTest, matchesKey, peek, getField, bind, Except.bind, pure, Except.pure]

theorem mergeNested_obj (recur : List Val → List Val → Except Err (List Val)) (gs fs : Fields) :
    mergeNested recur (.obj gs) (.obj fs) =
      if hasNested (.obj gs) then
        (recur (baseItems (.obj fs)) (items (peek (.obj gs) "properties"))).map
          (fun r => assign (.obj gs) "properties" (.arr r))
      else .ok (.obj gs) := by
  simp only [mergeNested, hasNested, baseItems, peek, getField, bind, Except.bind, pure,
    Except.pure]
  split
  · cases recur (items (if truthy ((own fs "properties").getD .undefined) = true
        then (own fs "properties").getD .undefined else .arr []))
        (items ((own gs "properties").getD .undefined)) <;> rfl
  · rfl

theorem scan_cons_obj (recur : List Val → List Val → Except Err (List Val)) (ext : Val)
    (j : Nat) (gs fs : Fields) (rest : List Val) (iso : Sparse) (found : Bool) :
    scan recur ext j (.obj fs :: rest) (.obj gs) iso found =
      if matchesKey (.obj gs) (peek (.obj fs) "property") then
        (mergeNested recur (.obj gs) (.obj fs)).bind (fun m1 =>
          (scan recur ext (j + 1) rest m1 (iso.setAt j (mergeEntry ext (.obj fs) m1)) true).map
            (fun st => (mergeEntry ext (.obj fs) m1 :: st.1, st.2)))
      else
        (scan recur ext (j + 1) rest (.obj gs) iso found).map
          (fun st => (.obj fs :: st.1, st.2)) := by
  rw [scan]
  simp only [matchTest_obj, bind, Except.bind, pure, Except.pure]
  split
  · cases mergeNested recur (.obj gs) (.obj fs) with
    | error e => rfl
    | ok m1 =>
      simp only []
      cases scan recur ext (j + 1) rest m1 (iso.setAt j (mergeEntry ext (.obj fs) m1)) true <;> rfl
  · cases scan recur ext (j + 1) rest (.obj gs) iso found <;> rfl

theorem Upd.refl (m : Val) : Upd m m := Or.inl rfl

theorem setField_setField (fs : Fields) (k : String) (x y : Val) :
    setField (setField fs k x) k y = setField fs k y := by
  induction fs with
  | nil => simp [setField]
  | cons kv rest ih =>
    obtain ⟨a, b⟩ := kv
    by_cases h : a = k
    · simp [setField, h]
    · simp [setField, h, ih]

theorem assign_assign (m : Val) (k : String) (x y : Val) :
    assign (assign m k x) k y = assign m k y := by
  cases m <;> simp [assign, setField_setField]

theorem Upd.trans {a b c : Val} (h1 : Upd a b) (h2 : Upd b c) : Upd a c := by
  rcases h1 with rfl | ⟨x, rfl⟩
  · exact h2
  · rcases h2 with rfl | ⟨y, rfl⟩
    · exact Or.inr ⟨x, rfl⟩
    · exact Or.inr ⟨y, assign_assign _ _ _ _⟩

theorem Upd.isObj {a b : Val} (h : Upd a b) (ha : ∃ gs, a = .obj gs) : ∃ gs, b = .obj gs := by
  obtain ⟨gs, rfl⟩ := ha
  rcases h with rfl | ⟨x, rfl⟩
  · exact ⟨gs, rfl⟩
  · exact ⟨_, rfl⟩

theorem Upd.peek {a b : Val} (h : Upd a b) (k : String) (hk : k ≠ "properties") :
    peek b k = peek a k := by
  rcases h with rfl | ⟨x, rfl⟩
  · rfl
  · have hk' : ¬ "properties" = k := fun h => hk h.symm
    cases a <;> simp [assign, SectorModel.peek, getField, own_setField, hk']

theorem Upd.own {a b : Val} (h : Upd a b) (k : String) (hk : k ≠ "properties") :
    own (ownFields b) k = own (ownFields a) k := by
  rcases h with rfl | ⟨x, rfl⟩
  · rfl
  · have hk' : ¬ "properties" = k := fun h => hk h.symm
    cases a <;> simp [assign, ownFields, own_setField, hk']

theorem Upd.matchesKey {a b : Val} (h : Upd a b) (key : Val) :
    matchesKey b key = matchesKey a key := by
  simp [SectorModel.matchesKey, h.peek "property" (by decide), h.peek "id" (by decide)]

theorem Upd.keyAfter {a b : Val} (h : Upd a b) (ext key : Val) :
    keyAfter ext b key = keyAfter ext a key := by
  simp [SectorModel.keyAfter, h.peek "property" (by decide), h.own "property" (by decide)]

theorem mergeNested_upd (recur : List Val → List Val → Except Err (List Val)) (gs fs : Fields)
    (m1 : Val) (h : mergeNested recur (.obj gs) (.obj fs) = .ok m1) : Upd (.obj gs) m1 := by
  rw [mergeNested_obj] at h
  split at h
  · cases hr : recur (baseItems (.obj fs)) (items (peek (.obj gs) "properties")) with
    | error e => rw [hr] at h; simp [Except.map] at h
    | ok r =>
      rw [hr] at h
      simp only [Except.map] at h
      injection h with h
      exact Or.inr ⟨_, h.symm⟩
  · injection h with h
    exact Or.inl h.symm

theorem mergeNested_ok {n : Nat} {recur : List Val → List Val → Except Err (List Val)}
    (hrec : RecSpec n recur) {m p : Val}
    (hm : isDesc (n + 1) m = true) (hp : isDesc (n + 1) p = true) :
    ∃ m1, mergeNested recur m p = .ok m1 ∧ isDesc (n + 1) m1 = true := by
  obtain ⟨gs, rfl⟩ := isDesc_isObj hm
  obtain ⟨fs, rfl⟩ := isDesc_isObj hp
  rw [mergeNested_obj]
  have hm' := (isDesc_succ_obj n gs).1 hm
  have hp' := (isDesc_succ_obj n fs).1 hp
  by_cases hn : hasNested (.obj gs) = true
  · simp only [hn, if_true]
    -- the override side
    have ho : ∃ xs, peek (.obj gs) "properties" = .arr xs ∧ xs ≠ [] ∧
        ∀ x ∈ xs, isDesc n x = true := by
      rcases hm'.2.2 with h | ⟨xs, h, hx⟩
      · simp [hasNested, peek, getField, h] at hn
      · refine ⟨xs, by simp [peek, getField, h], ?_, hx⟩
        intro he
        subst he
        simp [hasNested, peek, getField, h, jsLength, truthy] at hn
    obtain ⟨xs, hxs, hne, hall⟩ := ho
    have hb : ∀ x ∈ baseItems (.obj fs), isDesc n x = true := by
      rcases hp'.2.2 with h | ⟨ys, h, hy⟩
      · simp [baseItems, peek, getField, h, items]
      · simpa [baseItems, peek, getField, h, items] using hy
    rw [hxs]
    obtain ⟨r, hr, hrd⟩ := hrec (baseItems (.obj fs)) xs hb hall hne
    refine ⟨assign (.obj gs) "properties" (.arr r), ?_, isDesc_assign hm hrd⟩
    simp [items, hr, Except.map]
  · simp only [hn]
    exact ⟨_, rfl, hm⟩

/-! ## Arrays with holes -/

theorem Sparse.at_setAt (a : Sparse) (j i : Nat) (v : Val) :
    (a.setAt j v).at i = if i = j then some v else a.at i := by
  unfold Sparse.setAt Sparse.at
  by_cases hj : j < a.length
  · simp only [hj, if_true]
    by_cases hij : i = j
    · subst hij
      simp [List.getElem?_set, hj]
    · have : ¬ j = i := fun h => hij h.symm
      simp [List.getElem?_set, hij, this]
  · simp only [hj, if_false]
    have hle : a.length ≤ j := Nat.le_of_not_lt hj
    by_cases hij : i = j
    · subst hij
      have h1 : (a ++ List.replicate (i - a.length) none).length = i := by
        simp; omega
      rw [List.getElem?_append_right (by omega)]
      simp [h1]
    · simp only [hij, if_false]
      by_cases hi : i < a.length
      · rw [List.append_assoc, List.getElem?_append_left hi]
      · have hi' : a.length ≤ i := Nat.le_of_not_lt hi
        rw [List.getElem?_eq_none (l := a) hi']
        by_cases hlt : i < j
        · rw [List.getElem?_append_left (by simp; omega),
            List.getElem?_append_right hi']
          simp [List.getElem?_replicate]
        · rw [List.getElem?_eq_none (by simp; omega)]

theorem Sparse.at_push (a : Sparse) (i : Nat) (v : Val) :
    (a.push v).at i = if i = a.length then some v else a.at i := by
  unfold Sparse.push Sparse.at
  by_cases hi : i < a.length
  · have : ¬ i = a.length := by omega
    simp [List.getElem?_append_left hi, this]
  · by_cases he : i = a.length
    · subst he
      simp
    · have h1 : a[i]? = none := List.getElem?_eq_none (by omega)
      have h2 : (a ++ [some v])[i]? = none := List.getElem?_eq_none (by simp; omega)
      simp [he, h1, h2]

theorem Sparse.mem_compact (a : Sparse) (v : Val) :
    v ∈ a.compact ↔ (∃ i, a.at i = some v) ∧ truthy v = true := by
  unfold Sparse.compact Sparse.at
  simp only [List.mem_filterMap]
  constructor
  · rintro ⟨o, ho, h⟩
    cases o with
    | none => simp at h
    | some w =>
      by_cases hw : truthy w = true
      · simp [hw] at h
        subst h
        obtain ⟨i, hi⟩ := List.getElem?_of_mem ho
        exact ⟨⟨i, by simp [hi]⟩, hw⟩
      · simp [hw] at h
  · rintro ⟨⟨i, hi⟩, hv⟩
    refine ⟨some v, ?_, by simp [hv]⟩
    cases h : a[i]? with
    | none => simp [h] at hi
    | some o =>
      rw [h] at hi
      simp at hi
      subst hi
      exact List.getElem?_mem h

/-! ## One pass of the inner loop -/

theorem Sparse.length_le_setAt (a : Sparse) (j : Nat) (v : Val) :
    a.length ≤ (a.setAt j v).length := by
  unfold Sparse.setAt
  split <;> simp

theorem Sparse.lt_length_of_at {a : Sparse} {i : Nat} {v : Val} (h : a.at i = some v) :
    i < a.length := by
  unfold Sparse.at at h
  by_contra hc
  rw [List.getElem?_eq_none (Nat.le_of_not_lt hc)] at h
  simp at h

theorem keyOf_mergeEntry (ext : Val) (fs gs : Fields) :
    keyOf (mergeEntry ext (.obj fs) (.obj gs)) = keyAfter ext (.obj gs) (keyOf (.obj fs)) := by
  unfold mergeEntry keyAfter keyOf
  by_cases he : truthy ext = true
  · simp only [he, if_true, extend, peek, getField, ownFields, own_copyInto]
    cases h : own gs "property" <;> simp
  · simp only [he]
    rfl

theorem stepKeys_upd {a b : Val} (h : Upd a b) (ext : Val) (keys : List Val) :
    stepKeys ext b keys = stepKeys ext a keys := by
  unfold stepKeys stepKey
  apply List.map_congr_left
  intro k _
  rw [h.matchesKey, h.keyAfter]

theorem any_matches_upd {a b : Val} (h : Upd a b) (l : List Val) :
    l.any (fun p => matchesKey b (keyOf p)) = l.any (fun p => matchesKey a (keyOf p)) := by
  congr 1
  funext p
  exact h.matchesKey _

theorem scan_spec {n : Nat} {recur : List Val → List Val → Except Err (List Val)}
    (hrec : RecSpec n recur) (ext : Val) :
    ∀ (todo : List Val) (j : Nat) (m : Val) (iso : Sparse) (found : Bool),
      (∀ p ∈ todo, isDesc (n + 1) p = true) → isDesc (n + 1) m = true →
      ∃ res, scan recur ext j todo m iso found = .ok res ∧
        ScanFacts n ext j todo m iso found res := by
  intro todo
  induction todo with
  | nil =>
    intro j m iso found _ hm
    refine ⟨([], m, iso, found), by simp [scan], ?_⟩
    exact
      { found_eq := by simp
        length_eq := rfl
        desc := by simp
        desc_m := hm
        upd := Upd.refl m
        keys := rfl
        no_match := fun _ => ⟨rfl, rfl⟩
        kept := by simp
        iso_len := Nat.le_refl _
        iso_out := fun _ _ => rfl
        iso_in := by simp }
  | cons p rest ih =>
    intro j m iso found htodo hm
    have hp : isDesc (n + 1) p = true := htodo p (List.mem_cons_self _ _)
    have hrest : ∀ q ∈ rest, isDesc (n + 1) q = true :=
      fun q hq => htodo q (List.mem_cons_of_mem _ hq)
    obtain ⟨gs, rfl⟩ := isDesc_isObj hm
    obtain ⟨fs, rfl⟩ := isDesc_isObj hp
    rw [scan_cons_obj]
    by_cases hit : matchesKey (.obj gs) (peek (.obj fs) "property") = true
    · simp only [hit, if_true]
      obtain ⟨m1, hm1, hd1⟩ := mergeNested_ok hrec hm hp
      have hu : Upd (.obj gs) m1 := mergeNested_upd recur gs fs m1 hm1
      obtain ⟨gs1, rfl⟩ := hu.isObj ⟨gs, rfl⟩
      obtain ⟨res, hres, F⟩ := ih (j + 1) (.obj gs1)
        (iso.setAt j (mergeEntry ext (.obj fs) (.obj gs1))) true hrest hd1
      refine ⟨(mergeEntry ext (.obj fs) (.obj gs1) :: res.1, res.2), ?_, ?_⟩
      · simp [hm1, hres, Except.bind, Except.map]
      · have hitk : matchesKey (.obj gs) (keyOf (.obj fs)) = true := hit
        exact
          { found_eq := by
              simp only [F.found_eq, List.any_cons, hitk]
              simp
            length_eq := by simp [F.length_eq]
            desc := by
              intro q hq
              rcases List.mem_cons.1 hq with h | h
              · rw [h]; exact isDesc_mergeEntry hp hd1
              · exact F.desc q h
            desc_m := F.desc_m
            upd := hu.trans F.upd
            keys := by
              simp only [List.map_cons, F.keys, stepKeys_upd hu, keyOf_mergeEntry, hu.keyAfter]
              simp [stepKeys, stepKey, hitk]
            no_match := by
              intro h
              simp [List.any_cons, hitk] at h
            kept := by
              intro t q ht hq
              cases t with
              | zero =>
                simp at ht
                subst ht
                rw [hitk] at hq
                exact absurd hq (by simp)
              | succ t =>
                simp only [List.getElem?_cons_succ] at ht ⊢
                exact F.kept t q ht (by rw [hu.matchesKey]; exact hq)
            iso_len := Nat.le_trans (Sparse.length_le_setAt _ _ _) F.iso_len
            iso_out := by
              intro i hi
              have h1 := F.iso_out i (by simp only [List.length_cons] at hi; omega)
              rw [h1, Sparse.at_setAt]
              have : ¬ i = j := by simp only [List.length_cons] at hi; omega
              simp [this]
            iso_in := by
              intro t q ht
              cases t with
              | zero =>
                simp at ht
                subst ht
                have h1 := F.iso_out j (Or.inl (Nat.lt_succ_self j))
                simp only [Nat.add_zero, h1, Sparse.at_setAt, hitk]
                simp
              | succ t =>
                simp only [List.getElem?_cons_succ] at ht ⊢
                have h1 := F.iso_in t q ht
                have e : j + (t + 1) = j + 1 + t := by omega
                rw [e, h1, hu.matchesKey, Sparse.at_setAt]
                have : ¬ j + 1 + t = j := by omega
                simp [this] }
    · simp only [hit]
      obtain ⟨res, hres, F⟩ := ih (j + 1) (.obj gs) iso found hrest hm
      refine ⟨(.obj fs :: res.1, res.2), ?_, ?_⟩
      · simp [hres, Except.map]
      · have hitk : matchesKey (.obj gs) (keyOf (.obj fs)) = false := by
          simpa using hit
        exact
          { found_eq := by
              simp only [F.found_eq, List.any_cons, hitk]
              simp
            length_eq := by simp [F.length_eq]
            desc := by
              intro q hq
              rcases List.mem_cons.1 hq with h | h
              · rw [h]; exact hp
              · exact F.desc q h
            desc_m := F.desc_m
            upd := F.upd
            keys := by
              simp only [List.map_cons, F.keys]
              simp [stepKeys, stepKey, hitk]
            no_match := by
              intro h
              simp only [List.any_cons, hitk, Bool.false_or] at h
              exact F.no_match h
            kept := by
              intro t q ht hq
              cases t with
              | zero =>
                simp at ht
                subst ht
                simp
              | succ t =>
                simp only [List.getElem?_cons_succ] at ht ⊢
                exact F.kept t q ht hq
            iso_len := F.iso_len
            iso_out := by
              intro i hi
              exact F.iso_out i (by simp only [List.length_cons] at hi; omega)
            iso_in := by
              intro t q ht
              cases t with
              | zero =>
                simp at ht
                subst ht
                have h1 := F.iso_out j (Or.inl (Nat.lt_succ_self j))
                simp only [Nat.add_zero, h1, hitk]
                simp
              | succ t =>
                simp only [List.getElem?_cons_succ] at ht ⊢
                have h1 := F.iso_in t q ht
                have e : j + (t + 1) = j + 1 + t := by omega
                rw [e, h1] }

/-! ## The outer loop -/

theorem stepKeys_eq_self_of_no_match (ext m : Val) (keys : List Val)
    (h : keys.any (matchesKey m) = false) : stepKeys ext m keys = keys := by
  unfold stepKeys
  conv_rhs => rw [← List.map_id keys]
  apply List.map_congr_left
  intro k hk
  have : matchesKey m k = false := by
    rw [List.any_eq_false] at h
    simpa using h k hk
  simp [stepKey, this]

theorem unmatched_subset (ext : Val) (ms : List Val) :
    ∀ keys v, v ∈ unmatched ext keys ms → v ∈ ms := by
  induction ms with
  | nil => intro keys v h; simp [unmatched] at h
  | cons m more ih =>
    intro keys v h
    simp only [unmatched] at h
    split at h
    · exact List.mem_cons_of_mem _ (ih _ v h)
    · rcases List.mem_cons.1 h with h | h
      · rw [h]; exact List.mem_cons_self _ _
      · exact List.mem_cons_of_mem _ (ih _ v h)

theorem any_map_keyOf (m : Val) (base : List Val) :
    base.any (fun p => matchesKey m (keyOf p)) = (base.map keyOf).any (matchesKey m) := by
  simp [List.any_map, Function.comp_def]

theorem outer_cons_eq (recur : List Val → List Val → Except Err (List Val)) (ext : Val)
    (m : Val) (more base app : List Val) (iso : Sparse) (res : ScanState)
    (h : scan recur ext 0 base m iso false = .ok res) :
    outer recur ext base.length (m :: more) (base ++ app) iso =
      if res.2.2.2 then outer recur ext base.length more (res.1 ++ app) res.2.2.1
      else outer recur ext base.length more (res.1 ++ app ++ [res.2.1])
        (res.2.2.1.push res.2.1) := by
  rw [outer]
  simp only [List.take_left', List.drop_left', h, bind, Except.bind]
  cases res.2.2.2 <;> simp


theorem keys_at {base base1 : List Val} {f : Val → Val}
    (h : base1.map keyOf = base.map (fun p => f (keyOf p))) (i : Nat) (p : Val)
    (hp : base[i]? = some p) : ∃ p1, base1[i]? = some p1 ∧ keyOf p1 = f (keyOf p) := by
  have h1 := congrArg (fun l => l[i]?) h
  simp only [List.getElem?_map, hp, Option.map_some'] at h1
  cases hb : base1[i]? with
  | none => rw [hb] at h1; simp at h1
  | some p1 =>
    rw [hb] at h1
    simp only [Option.map_some', Option.some.injEq] at h1
    exact ⟨p1, rfl, h1⟩

theorem keys_at' {base base1 : List Val} {f : Val → Val}
    (h : base1.map keyOf = base.map (fun p => f (keyOf p))) (i : Nat) (p1 : Val)
    (hp : base1[i]? = some p1) : ∃ p, base[i]? = some p ∧ keyOf p1 = f (keyOf p) := by
  have h1 := congrArg (fun l => l[i]?) h
  simp only [List.getElem?_map, hp, Option.map_some'] at h1
  cases hb : base[i]? with
  | none => rw [hb] at h1; simp at h1
  | some p =>
    rw [hb] at h1
    simp only [Option.map_some', Option.some.injEq] at h1
    exact ⟨p, rfl, h1⟩

theorem scan_keys_map {n : Nat} {ext : Val} {j : Nat} {todo : List Val} {m : Val} {iso : Sparse}
    {found : Bool} {res : ScanState} (F : ScanFacts n ext j todo m iso found res) :
    res.1.map keyOf = todo.map (fun p => stepKey ext m (keyOf p)) := by
  rw [F.keys]
  simp [stepKeys, List.map_map, Function.comp_def]

theorem outer_spec {n : Nat} {recur : List Val → List Val → Except Err (List Val)}
    (hrec : RecSpec n recur) (ext : Val) :
    ∀ (ms base app : List Val) (iso : Sparse),
      (∀ p ∈ base, isDesc (n + 1) p = true) → (∀ m ∈ ms, isDesc (n + 1) m = true) →
      ∃ base' iso',
        outer recur ext base.length ms (base ++ app) iso =
          .ok (base' ++ app ++ unmatched ext (base.map keyOf) ms, iso') ∧
        OuterFacts n ext ms base iso base' iso' := by
  intro ms
  induction ms with
  | nil =>
    intro base app iso hbase _
    refine ⟨base, iso, by simp [outer, unmatched], ?_⟩
    exact
      { length_eq := rfl
        desc := hbase
        keys := by simp [finalKey]
        kept := fun i p hp _ => hp
        iso_at := fun i v hv => Or.inr ⟨fun _ _ => rfl, Or.inl hv⟩
        iso_keep := fun i v hv _ => hv
        iso_touched := by
          intro i p _ ht
          simp [touchedKey] at ht }
  | cons m more ih =>
    intro base app iso hbase hms
    have hm : isDesc (n + 1) m = true := hms m (List.mem_cons_self _ _)
    have hmore : ∀ x ∈ more, isDesc (n + 1) x = true :=
      fun x hx => hms x (List.mem_cons_of_mem _ hx)
    obtain ⟨res, hres, F⟩ := scan_spec hrec ext base 0 m iso false hbase hm
    have hkeys := scan_keys_map F
    have hfound : res.2.2.2 = (base.map keyOf).any (matchesKey m) := by
      rw [F.found_eq, any_map_keyOf]; simp
    rw [outer_cons_eq recur ext m more base app iso res hres]
    by_cases hf : res.2.2.2 = true
    · -- some base entry matched
      have hany : (base.map keyOf).any (matchesKey m) = true := by rw [← hfound]; exact hf
      obtain ⟨base', iso', hout, G⟩ := ih res.1 app res.2.2.1 F.desc hmore
      refine ⟨base', iso', ?_, ?_⟩
      · simp only [hf, if_true]
        rw [← F.length_eq, hout]
        simp only [unmatched, hany, if_true, F.keys]
      · exact
          { length_eq := G.length_eq.trans F.length_eq
            desc := G.desc
            keys := by
              rw [G.keys]
              apply List.ext_getElem?
              intro i
              simp only [List.getElem?_map]
              cases hb : base[i]? with
              | none =>
                have : res.1[i]? = none := by
                  rw [List.getElem?_eq_none_iff] at hb ⊢
                  rw [F.length_eq]; exact hb
                simp [this]
              | some p =>
                obtain ⟨p1, hp1, hk⟩ := keys_at hkeys i p hb
                simp [hp1, hk, finalKey]
            kept := by
              intro i p hp ht
              simp only [touchedKey, Bool.or_eq_false_iff] at ht
              have h1 := F.kept i p hp ht.1
              apply G.kept i p h1
              have : stepKey ext m (keyOf p) = keyOf p := by simp [stepKey, ht.1]
              rw [← this]; exact ht.2
            iso_at := by
              intro i v hv
              rcases G.iso_at i v hv with ⟨p1, hp1, ht1, hb'⟩ | ⟨hnt, hrest⟩
              · obtain ⟨p, hp, hk⟩ := keys_at' hkeys i p1 hp1
                refine Or.inl ⟨p, hp, ?_, hb'⟩
                simp only [touchedKey, ← hk, ht1, Bool.or_true]
              · cases hb : base[i]? with
                | none =>
                  refine Or.inr ⟨fun p hp => by simp at hp, ?_⟩
                  have hi : base.length ≤ i := List.getElem?_eq_none_iff.1 hb
                  have e := F.iso_out i (Or.inr (by omega))
                  rcases hrest with h | ⟨h1, h2⟩
                  · left; rw [← e]; exact h
                  · right
                    refine ⟨?_, Nat.le_trans F.iso_len h2⟩
                    simpa only [unmatched, hany, if_true, F.keys] using h1
                | some p =>
                  obtain ⟨p1, hp1, hk⟩ := keys_at hkeys i p hb
                  have hnt1 := hnt p1 hp1
                  have e := F.iso_in i p hb
                  simp only [Nat.zero_add] at e
                  by_cases hmp : matchesKey m (keyOf p) = true
                  · refine Or.inl ⟨p, rfl, by simp [touchedKey, hmp], ?_⟩
                    rw [hmp, if_pos rfl, hp1] at e
                    rcases hrest with h | ⟨_, h2⟩
                    · rw [e] at h
                      injection h with h
                      subst h
                      exact G.kept i p1 hp1 hnt1
                    · have := Sparse.lt_length_of_at e
                      omega
                  · have hmp' : matchesKey m (keyOf p) = false := by simpa using hmp
                    rw [hmp'] at e
                    simp only [Bool.false_eq_true, if_false] at e
                    refine Or.inr ⟨?_, ?_⟩
                    · intro q hq
                      have hqp : q = p := by
                        injection hq with h
                        exact h.symm
                      rw [hqp]
                      simp only [touchedKey, hmp', Bool.false_or, ← hk]
                      exact hnt1
                    · rcases hrest with h | ⟨h1, h2⟩
                      · left; rw [← e]; exact h
                      · right
                        refine ⟨?_, Nat.le_trans F.iso_len h2⟩
                        simpa only [unmatched, hany, if_true, F.keys] using h1
            iso_keep := by
              intro i v hv hnt
              apply G.iso_keep i v
              · cases hb : base[i]? with
                | none =>
                  have hi : base.length ≤ i := List.getElem?_eq_none_iff.1 hb
                  rw [F.iso_out i (Or.inr (by omega))]; exact hv
                | some p =>
                  have ht := hnt p hb
                  simp only [touchedKey, Bool.or_eq_false_iff] at ht
                  have e := F.iso_in i p hb
                  simp only [Nat.zero_add, ht.1, Bool.false_eq_true, if_false] at e
                  rw [e]; exact hv
              · intro p1 hp1
                obtain ⟨p, hp, hk⟩ := keys_at' hkeys i p1 hp1
                have ht := hnt p hp
                simp only [touchedKey, Bool.or_eq_false_iff] at ht
                rw [hk]; exact ht.2
            iso_touched := by
              intro i p hp ht
              obtain ⟨p1, hp1, hk⟩ := keys_at hkeys i p hp
              by_cases ht1 : touchedKey ext (keyOf p1) more = true
              · exact G.iso_touched i p1 hp1 ht1
              · have ht1' : touchedKey ext (keyOf p1) more = false := by simpa using ht1
                have hmp : matchesKey m (keyOf p) = true := by
                  simp only [touchedKey, ← hk, ht1', Bool.or_false] at ht
                  exact ht
                have e := F.iso_in i p hp
                simp only [Nat.zero_add, hmp, if_true, hp1] at e
                rw [G.kept i p1 hp1 ht1']
                apply G.iso_keep i p1 e
                intro q hq
                rw [hp1] at hq
                injection hq with hq
                rw [← hq]; exact ht1' }
    · -- no base entry matched
      have hf' : res.2.2.2 = false := by simpa using hf
      have hany : (base.map keyOf).any (matchesKey m) = false := by rw [← hfound]; exact hf'
      have hany' : base.any (fun p => matchesKey m (keyOf p)) = false := by
        rw [any_map_keyOf]; exact hany
      obtain ⟨hm1, hiso⟩ := F.no_match hany'
      have hk1 : res.1.map keyOf = base.map keyOf := by
        rw [F.keys]; exact stepKeys_eq_self_of_no_match ext m _ hany
      have hnomatch : ∀ (i : Nat) (p : Val), base[i]? = some p → matchesKey m (keyOf p) = false := by
        intro i p hp
        rw [List.any_eq_false] at hany'
        simpa using hany' p (List.getElem?_mem hp)
      obtain ⟨base', iso', hout, G⟩ := ih res.1 (app ++ [m]) (iso.push m) F.desc hmore
      refine ⟨base', iso', ?_, ?_⟩
      · simp only [hf', Bool.false_eq_true, if_false, hm1, hiso]
        rw [← F.length_eq, List.append_assoc res.1, hout]
        simp only [unmatched, hany, Bool.false_eq_true, if_false, hk1, List.append_assoc,
          List.singleton_append]
      · exact
          { length_eq := G.length_eq.trans F.length_eq
            desc := G.desc
            keys := by
              rw [G.keys]
              apply List.ext_getElem?
              intro i
              simp only [List.getElem?_map]
              cases hb : base[i]? with
              | none =>
                have : res.1[i]? = none := by
                  rw [List.getElem?_eq_none_iff] at hb ⊢
                  rw [F.length_eq]; exact hb
                simp [this]
              | some p =>
                obtain ⟨p1, hp1, hk⟩ := keys_at hkeys i p hb
                simp [hp1, hk, finalKey]
            kept := by
              intro i p hp ht
              simp only [touchedKey, Bool.or_eq_false_iff] at ht
              have h1 := F.kept i p hp ht.1
              apply G.kept i p h1
              have : stepKey ext m (keyOf p) = keyOf p := by simp [stepKey, ht.1]
              rw [← this]; exact ht.2
            iso_at := by
              intro i v hv
              have hpush : ∀ w, (iso.push m).at i = some w →
                  iso.at i = some w ∨
                    (w ∈ unmatched ext (base.map keyOf) (m :: more) ∧ iso.length ≤ i) := by
                intro w hw
                rw [Sparse.at_push] at hw
                by_cases hi : i = iso.length
                · right
                  simp only [hi, if_true] at hw
                  injection hw with hw
                  subst hw
                  refine ⟨?_, by omega⟩
                  simp [unmatched, hany]
                · left
                  simpa [hi] using hw
              have hun : ∀ w, w ∈ unmatched ext (res.1.map keyOf) more →
                  w ∈ unmatched ext (base.map keyOf) (m :: more) := by
                intro w hw
                rw [hk1] at hw
                simp [unmatched, hany, hw]
              have hlen : iso.length ≤ (iso.push m).length := by simp [Sparse.push]
              rcases G.iso_at i v hv with ⟨p1, hp1, ht1, hb'⟩ | ⟨hnt, hrest⟩
              · obtain ⟨p, hp, hk⟩ := keys_at' hkeys i p1 hp1
                refine Or.inl ⟨p, hp, ?_, hb'⟩
                simp only [touchedKey, ← hk, ht1, Bool.or_true]
              · refine Or.inr ⟨?_, ?_⟩
                · intro p hp
                  obtain ⟨p1, hp1, hk⟩ := keys_at hkeys i p hp
                  have hnt1 := hnt p1 hp1
                  have hmp := hnomatch i p hp
                  simp only [touchedKey, hmp, Bool.false_or, ← hk]
                  exact hnt1
                · rcases hrest with h | ⟨h1, h2⟩
                  · exact hpush v h
                  · exact Or.inr ⟨hun v h1, Nat.le_trans hlen h2⟩
            iso_keep := by
              intro i v hv hnt
              apply G.iso_keep i v
              · rw [Sparse.at_push]
                have := Sparse.lt_length_of_at hv
                have hne : ¬ i = iso.length := by omega
                simp only [hne, if_false]; exact hv
              · intro p1 hp1
                obtain ⟨p, hp, hk⟩ := keys_at' hkeys i p1 hp1
                have ht := hnt p hp
                simp only [touchedKey, Bool.or_eq_false_iff] at ht
                rw [hk]; exact ht.2
            iso_touched := by
              intro i p hp ht
              obtain ⟨p1, hp1, hk⟩ := keys_at hkeys i p hp
              have hmp := hnomatch i p hp
              simp only [touchedKey, hmp, Bool.false_or, ← hk] at ht
              exact G.iso_touched i p1 hp1 ht }

/-! ## The whole merge -/

theorem extendProperties_eq (self : Sector) (fuel : Nat) (props : List Val)
    (moProps : Option (List Val)) (ex : Val) :
    extendProperties self fuel props moProps ex =
      extendWith (recurOf self fuel) self props moProps ex := by
  cases fuel <;> rfl

theorem extendProperties_of_rec (self : Sector) (fuel : Nat)
    (hrec : RecSpec fuel (recurOf self fuel)) (props ms : List Val)
    (hp : ∀ p ∈ props, isDesc (fuel + 1) p = true)
    (hm : ∀ m ∈ ms, isDesc (fuel + 1) m = true) :
    ∃ base' iso', OuterFacts fuel self.extendBuilded ms props [] base' iso' ∧
      (∀ ex, extendProperties self fuel props (some ms) ex =
        .ok (if truthy ex then iso'.compact
          else base' ++ unmatched self.extendBuilded (props.map keyOf) ms)) ∧
      ∀ x ∈ iso'.compact, isDesc (fuel + 1) x = true := by
  obtain ⟨base', iso', hout, G⟩ := outer_spec hrec self.extendBuilded ms props [] [] hp hm
  refine ⟨base', iso', G, ?_, ?_⟩
  · intro ex
    rw [extendProperties_eq]
    simp only [extendWith, List.append_nil] at hout ⊢
    simp [hout, bind, Except.bind, pure, Except.pure]
  · intro x hx
    obtain ⟨⟨i, hi⟩, _⟩ := (Sparse.mem_compact iso' x).1 hx
    rcases G.iso_at i x hi with ⟨p, _, _, hb⟩ | ⟨_, h | ⟨h, _⟩⟩
    · exact G.desc x (List.getElem?_mem hb)
    · simp [Sparse.at] at h
    · exact hm x (unmatched_subset _ _ _ _ h)

theorem recSpec_recurOf (self : Sector) : ∀ fuel, RecSpec fuel (recurOf self fuel) := by
  intro fuel
  induction fuel with
  | zero =>
    intro b o _ ho hne
    cases o with
    | nil => exact absurd rfl hne
    | cons x xs =>
      have := ho x (List.mem_cons_self _ _)
      simp [isDesc] at this
  | succ f ih =>
    intro b o hb ho _
    obtain ⟨base', iso', _, heq, hd⟩ :=
      extendProperties_of_rec self f ih b o hb ho
    refine ⟨iso'.compact, ?_, hd⟩
    simp only [recurOf, heq]
    simp [truthy]

theorem extendProperties_spec (self : Sector) (fuel : Nat) (props ms : List Val)
    (hp : ∀ p ∈ props, isDesc (fuel + 1) p = true)
    (hm : ∀ m ∈ ms, isDesc (fuel + 1) m = true) :
    ∃ base' iso', OuterFacts fuel self.extendBuilded ms props [] base' iso' ∧
      (∀ ex, extendProperties self fuel props (some ms) ex =
        .ok (if truthy ex then iso'.compact
          else base' ++ unmatched self.extendBuilded (props.map keyOf) ms)) ∧
      ∀ x ∈ iso'.compact, isDesc (fuel + 1) x = true :=
  extendProperties_of_rec self fuel (recSpec_recurOf self fuel) props ms hp hm

theorem unmatched_sublist (ext : Val) (ms : List Val) :
    ∀ keys, (unmatched ext keys ms).Sublist ms := by
  induction ms with
  | nil => intro keys; simp [unmatched]
  | cons m more ih =>
    intro keys
    simp only [unmatched]
    split
    · exact List.Sublist.cons _ (ih _)
    · exact List.Sublist.cons₂ _ (ih _)

/-! ## Entries with unambiguous identifiers -/

theorem wellKeyed_isObj {n : Nat} {v : Val} (h : wellKeyed n v = true) : ∃ fs, v = .obj fs := by
  cases n with
  | zero => simp [wellKeyed] at h
  | succ n =>
    cases v <;> simp [wellKeyed] at h
    exact ⟨_, rfl⟩

theorem strKey_iff (v : Val) : strKey v = true ↔ ∃ s, keyOf v = .str s := by
  unfold strKey
  cases h : keyOf v <;> simp

theorem keyOf_eq_of_strKey {v : Val} (h : strKey v = true) : keyOf v = .str (keyString v) := by
  obtain ⟨s, hs⟩ := (strKey_iff v).1 h
  simp [keyString, hs]

theorem wellKeyed_succ_obj (n : Nat) (fs : Fields) :
    wellKeyed (n + 1) (.obj fs) = true ↔
      strKey (.obj fs) = true ∧ idOk (.obj fs) = true ∧
      (own fs "properties" = none ∨
        ∃ xs, own fs "properties" = some (.arr xs) ∧ WellKeyedList n xs) := by
  simp only [wellKeyed, Bool.and_eq_true, WellKeyedList]
  constructor
  · rintro ⟨⟨h1, h2⟩, h3⟩
    refine ⟨h1, h2, ?_⟩
    cases hp : own fs "properties" with
    | none => exact Or.inl rfl
    | some v =>
      rw [hp] at h3
      cases v <;> simp at h3
      exact Or.inr ⟨_, rfl, h3.1, h3.2⟩
  · rintro ⟨h1, h2, h3⟩
    refine ⟨⟨h1, h2⟩, ?_⟩
    rcases h3 with h3 | ⟨xs, h3, h4, h5⟩
    · simp [h3]
    · simp only [h3, Bool.and_eq_true, decide_eq_true_eq, List.all_eq_true]
      exact ⟨h4, h5⟩

theorem own_property_of_strKey {fs : Fields} (h : strKey (.obj fs) = true) :
    own fs "property" = some (.str (keyString (.obj fs))) := by
  have h1 := keyOf_eq_of_strKey h
  simp only [keyOf, peek, getField] at h1
  cases ho : own fs "property" with
  | none => rw [ho] at h1; simp at h1
  | some v => rw [ho] at h1; simp at h1; rw [h1]

theorem own_id_of_idOk {fs : Fields} (hs : strKey (.obj fs) = true) (h : idOk (.obj fs) = true) :
    own fs "id" = none ∨ own fs "id" = some (.str (keyString (.obj fs))) := by
  have h1 := keyOf_eq_of_strKey hs
  unfold idOk at h
  simp only [ownFields, h1] at h
  cases ho : own fs "id" with
  | none => exact Or.inl rfl
  | some v =>
    rw [ho] at h
    cases v <;> simp at h
    right; rw [h]

theorem wellKeyed_isDesc {n : Nat} : ∀ {v : Val}, wellKeyed n v = true → isDesc n v = true := by
  induction n with
  | zero => intro v h; simp [wellKeyed] at h
  | succ n ih =>
    intro v h
    obtain ⟨fs, rfl⟩ := wellKeyed_isObj h
    rw [wellKeyed_succ_obj] at h
    obtain ⟨h1, h2, h3⟩ := h
    rw [isDesc_succ_obj]
    refine ⟨?_, ?_, ?_⟩
    · rw [own_property_of_strKey h1]; rfl
    · rcases own_id_of_idOk h1 h2 with h | h <;> rw [h] <;> rfl
    · rcases h3 with h3 | ⟨xs, h3, _, h5⟩
      · exact Or.inl h3
      · exact Or.inr ⟨xs, h3, fun x hx => ih (h5 x hx)⟩

theorem matchesKey_wellKeyed {n : Nat} {m : Val} (hm : wellKeyed (n + 1) m = true) (s : String) :
    matchesKey m (.str s) = (keyString m == s) := by
  obtain ⟨gs, rfl⟩ := wellKeyed_isObj hm
  rw [wellKeyed_succ_obj] at hm
  obtain ⟨h1, h2, _⟩ := hm
  have hp := own_property_of_strKey h1
  unfold matchesKey
  rcases own_id_of_idOk h1 h2 with h | h
  · simp [peek, getField, hp, h, looseEq]
  · simp [peek, getField, hp, h, looseEq]

theorem keyAfter_wellKeyed {n : Nat} {m : Val} (hm : wellKeyed (n + 1) m = true) (ext key : Val) :
    keyAfter ext m key = .str (keyString m) := by
  obtain ⟨gs, rfl⟩ := wellKeyed_isObj hm
  rw [wellKeyed_succ_obj] at hm
  have hp := own_property_of_strKey hm.1
  unfold keyAfter
  split <;> simp [ownFields, peek, getField, hp]

theorem stepKey_wellKeyed {n : Nat} {m : Val} (hm : wellKeyed (n + 1) m = true) (ext : Val)
    (s : String) : stepKey ext m (.str s) = .str s := by
  unfold stepKey
  rw [matchesKey_wellKeyed hm, keyAfter_wellKeyed hm]
  by_cases h : keyString m = s <;> simp [h]

theorem finalKey_wellKeyed {n : Nat} (ext : Val) (s : String) :
    ∀ ms : List Val, (∀ m ∈ ms, wellKeyed (n + 1) m = true) →
      finalKey ext (.str s) ms = .str s := by
  intro ms
  induction ms with
  | nil => intro _; rfl
  | cons m more ih =>
    intro h
    simp only [finalKey, stepKey_wellKeyed (h m (List.mem_cons_self _ _))]
    exact ih (fun x hx => h x (List.mem_cons_of_mem _ hx))

theorem touchedKey_wellKeyed {n : Nat} (ext : Val) (s : String) :
    ∀ ms : List Val, (∀ m ∈ ms, wellKeyed (n + 1) m = true) →
      touchedKey ext (.str s) ms = ms.any (fun m => keyString m == s) := by
  intro ms
  induction ms with
  | nil => intro _; rfl
  | cons m more ih =>
    intro h
    have hm := h m (List.mem_cons_self _ _)
    simp only [touchedKey, stepKey_wellKeyed hm, matchesKey_wellKeyed hm, List.any_cons]
    rw [ih (fun x hx => h x (List.mem_cons_of_mem _ hx))]

theorem unmatched_wellKeyed {n : Nat} (ext : Val) :
    ∀ (ms : List Val) (keys : List String), (∀ m ∈ ms, wellKeyed (n + 1) m = true) →
      unmatched ext (keys.map Val.str) ms = ms.filter (fun m => !(keys.contains (keyString m))) := by
  intro ms
  induction ms with
  | nil => intro keys _; rfl
  | cons m more ih =>
    intro keys h
    have hm := h m (List.mem_cons_self _ _)
    have hmore : ∀ x ∈ more, wellKeyed (n + 1) x = true :=
      fun x hx => h x (List.mem_cons_of_mem _ hx)
    have hstep : stepKeys ext m (keys.map Val.str) = keys.map Val.str := by
      simp only [stepKeys, List.map_map]
      apply List.map_congr_left
      intro k _
      exact stepKey_wellKeyed hm ext k
    have hany : (keys.map Val.str).any (matchesKey m) = keys.contains (keyString m) := by
      clear hstep ih
      induction keys with
      | nil => rfl
      | cons k ks ihk =>
        simp only [List.map_cons, List.any_cons, List.contains_cons, ihk,
          matchesKey_wellKeyed hm]
    simp only [unmatched, hstep, hany, ih keys hmore, List.filter_cons]
    cases keys.contains (keyString m) <;> simp

theorem keyString_obj {fs : Fields} {s : String} (h : own fs "property" = some (.str s)) :
    keyString (.obj fs) = s := by
  simp [keyString, keyOf, peek, getField, h]

theorem wellKeyed_iff (n : Nat) (fs : Fields) :
    wellKeyed (n + 1) (.obj fs) = true ↔
      ∃ s, own fs "property" = some (.str s) ∧
        (own fs "id" = none ∨ own fs "id" = some (.str s)) ∧
        (own fs "properties" = none ∨
          ∃ xs, own fs "properties" = some (.arr xs) ∧ WellKeyedList n xs) := by
  rw [wellKeyed_succ_obj]
  constructor
  · rintro ⟨h1, h2, h3⟩
    exact ⟨_, own_property_of_strKey h1, own_id_of_idOk h1 h2, h3⟩
  · rintro ⟨s, h1, h2, h3⟩
    have hk : keyOf (.obj fs) = .str s := by simp [keyOf, peek, getField, h1]
    refine ⟨by simp [strKey, hk], ?_, h3⟩
    unfold idOk
    rcases h2 with h2 | h2 <;> simp [ownFields, h2, hk]

theorem mergeNested_cases (recur : List Val → List Val → Except Err (List Val)) (gs fs : Fields)
    (m1 : Val) (h : mergeNested recur (.obj gs) (.obj fs) = .ok m1) :
    m1 = .obj gs ∨
      ∃ r, hasNested (.obj gs) = true ∧
        recur (baseItems (.obj fs)) (items (peek (.obj gs) "properties")) = .ok r ∧
        m1 = .obj (setField gs "properties" (.arr r)) := by
  rw [mergeNested_obj] at h
  by_cases hn : hasNested (.obj gs) = true
  · simp only [hn, if_true] at h
    cases hr : recur (baseItems (.obj fs)) (items (peek (.obj gs) "properties")) with
    | error e => rw [hr] at h; simp [Except.map] at h
    | ok r =>
      rw [hr] at h
      simp only [Except.map] at h
      injection h with h
      exact Or.inr ⟨r, hn, rfl, by rw [← h]; rfl⟩
  · simp only [hn] at h
    injection h with h
    exact Or.inl h.symm

theorem wellKeyedList_nil (n : Nat) : WellKeyedList n [] := by
  simp [WellKeyedList]

theorem wellKeyed_step {n : Nat} {recur : List Val → List Val → Except Err (List Val)}
    (hrec : RecKeyed n recur) (ext : Val) (m p m1 : Val)
    (hm : wellKeyed (n + 1) m = true) (hp : wellKeyed (n + 1) p = true)
    (hit : matchesKey m (keyOf p) = true) (h : mergeNested recur m p = .ok m1) :
    wellKeyed (n + 1) m1 = true ∧ wellKeyed (n + 1) (mergeEntry ext p m1) = true := by
  obtain ⟨gs, rfl⟩ := wellKeyed_isObj hm
  obtain ⟨fs, rfl⟩ := wellKeyed_isObj hp
  have hm' := hm
  have hp' := hp
  rw [wellKeyed_iff] at hm' hp'
  obtain ⟨s, g1, g2, g3⟩ := hm'
  obtain ⟨t, f1, f2, f3⟩ := hp'
  -- a match means equal keys
  have hst : s = t := by
    have hk : keyOf (.obj fs) = .str t := by simp [keyOf, peek, getField, f1]
    rw [hk, matchesKey_wellKeyed hm, keyString_obj g1] at hit
    simpa using hit
  subst hst
  -- the override entry after the nested step
  have hm1 : ∃ gs1, m1 = .obj gs1 ∧ own gs1 "property" = some (.str s) ∧
      (own gs1 "id" = none ∨ own gs1 "id" = some (.str s)) ∧
      (own gs1 "properties" = none ∨
        ∃ xs, own gs1 "properties" = some (.arr xs) ∧ WellKeyedList n xs) := by
    rcases mergeNested_cases recur gs fs m1 h with h1 | ⟨r, hn, hr, h1⟩
    · exact ⟨gs, h1, g1, g2, g3⟩
    · refine ⟨_, h1, ?_, ?_, ?_⟩
      · rw [own_setField]; simpa using g1
      · rw [own_setField]; simpa using g2
      · right
        refine ⟨r, by rw [own_setField]; simp, ?_⟩
        apply hrec _ _ r _ _ hr
        · rcases f3 with f3 | ⟨ys, f3, hy⟩
          · simp only [baseItems, peek, getField, f3]
            exact wellKeyedList_nil n
          · simpa [baseItems, peek, getField, f3, items] using hy
        · rcases g3 with g3 | ⟨xs, g3, hx⟩
          · simp only [peek, getField, g3]
            exact wellKeyedList_nil n
          · simpa [peek, getField, g3, items] using hx
  obtain ⟨gs1, rfl, k1, k2, k3⟩ := hm1
  refine ⟨(wellKeyed_iff n gs1).2 ⟨s, k1, k2, k3⟩, ?_⟩
  unfold mergeEntry
  split
  · simp only [extend]
    rw [wellKeyed_iff]
    refine ⟨s, ?_, ?_, ?_⟩
    · rw [own_copyInto, k1]; rfl
    · rw [own_copyInto]
      rcases k2 with k2 | k2
      · rw [k2]; exact f2
      · rw [k2]; right; rfl
    · rw [own_copyInto]
      rcases k3 with k3 | ⟨xs, k3, hx⟩
      · rw [k3]; exact f3
      · rw [k3]; right; exact ⟨xs, rfl, hx⟩
  · exact (wellKeyed_iff n gs1).2 ⟨s, k1, k2, k3⟩

theorem scan_inv {recur : List Val → List Val → Except Err (List Val)} {ext : Val}
    (Q : Val → Prop) (hobj : ∀ v, Q v → ∃ fs, v = .obj fs)
    (hstep : ∀ m p m1, Q m → Q p → matchesKey m (keyOf p) = true →
      mergeNested recur m p = .ok m1 → Q m1 ∧ Q (mergeEntry ext p m1)) :
    ∀ (todo : List Val) (j : Nat) (m : Val) (iso : Sparse) (found : Bool) (res : ScanState),
      (∀ p ∈ todo, Q p) → Q m → scan recur ext j todo m iso found = .ok res →
      (∀ p ∈ res.1, Q p) ∧ Q res.2.1 := by
  intro todo
  induction todo with
  | nil =>
    intro j m iso found res _ hm h
    simp only [scan] at h
    injection h with h
    subst h
    exact ⟨by simp, hm⟩
  | cons p rest ih =>
    intro j m iso found res htodo hm h
    have hp : Q p := htodo p (List.mem_cons_self _ _)
    have hrest : ∀ q ∈ rest, Q q := fun q hq => htodo q (List.mem_cons_of_mem _ hq)
    obtain ⟨gs, rfl⟩ := hobj m hm
    obtain ⟨fs, rfl⟩ := hobj p hp
    rw [scan_cons_obj] at h
    by_cases hit : matchesKey (.obj gs) (peek (.obj fs) "property") = true
    · simp only [hit, if_true] at h
      cases hmn : mergeNested recur (.obj gs) (.obj fs) with
      | error e => rw [hmn] at h; simp [Except.bind] at h
      | ok m1 =>
        rw [hmn] at h
        simp only [Except.bind] at h
        obtain ⟨q1, q2⟩ := hstep _ _ m1 hm hp hit hmn
        cases hs : scan recur ext (j + 1) rest m1
            (iso.setAt j (mergeEntry ext (.obj fs) m1)) true with
        | error e => rw [hs] at h; simp [Except.map] at h
        | ok st =>
          rw [hs] at h
          simp only [Except.map] at h
          injection h with h
          subst h
          obtain ⟨i1, i2⟩ := ih _ _ _ _ st hrest q1 hs
          refine ⟨?_, i2⟩
          intro q hq
          rcases List.mem_cons.1 hq with hq | hq
          · rw [hq]; exact q2
          · exact i1 q hq
    · simp only [hit] at h
      cases hs : scan recur ext (j + 1) rest (.obj gs) iso found with
      | error e => rw [hs] at h; simp [Except.map] at h
      | ok st =>
        rw [hs] at h
        simp only [Except.map] at h
        injection h with h
        subst h
        obtain ⟨i1, i2⟩ := ih _ _ _ _ st hrest hm hs
        refine ⟨?_, i2⟩
        intro q hq
        rcases List.mem_cons.1 hq with hq | hq
        · rw [hq]; exact hp
        · exact i1 q hq

theorem outer_inv {recur : List Val → List Val → Except Err (List Val)} {ext : Val}
    (Q : Val → Prop) (hobj : ∀ v, Q v → ∃ fs, v = .obj fs)
    (hstep : ∀ m p m1, Q m → Q p → matchesKey m (keyOf p) = true →
      mergeNested recur m p = .ok m1 → Q m1 ∧ Q (mergeEntry ext p m1)) (pLen : Nat) :
    ∀ (ms props : List Val) (iso : Sparse) (res : List Val × Sparse),
      (∀ p ∈ props, Q p) → (∀ m ∈ ms, Q m) → outer recur ext pLen ms props iso = .ok res →
      ∀ p ∈ res.1, Q p := by
  intro ms
  induction ms with
  | nil =>
    intro props iso res hp _ h
    simp only [outer] at h
    injection h with h
    subst h
    exact hp
  | cons m more ih =>
    intro props iso res hp hms h
    rw [outer] at h
    cases hs : scan recur ext 0 (props.take pLen) m iso false with
    | error e => rw [hs] at h; simp [bind, Except.bind] at h
    | ok st =>
      rw [hs] at h
      simp only [bind, Except.bind] at h
      obtain ⟨i1, i2⟩ := scan_inv Q hobj hstep _ _ _ _ _ st
        (fun p hp' => hp p (List.mem_of_mem_take hp')) (hms m (List.mem_cons_self _ _)) hs
      have hmore : ∀ x ∈ more, Q x := fun x hx => hms x (List.mem_cons_of_mem _ hx)
      have hbase : ∀ p ∈ st.1 ++ props.drop pLen, Q p := by
        intro p hp'
        rcases List.mem_append.1 hp' with h1 | h1
        · exact i1 p h1
        · exact hp p (List.mem_of_mem_drop h1)
      split at h
      · refine ih _ _ res ?_ hmore h
        intro p hp'
        rcases List.mem_append.1 hp' with h1 | h1
        · exact hbase p h1
        · simp only [List.mem_singleton] at h1
          rw [h1]; exact i2
      · exact ih _ _ res hbase hmore h

theorem Sparse.at_cons_succ (o : Option Val) (a : Sparse) (i : Nat) :
    Sparse.at (o :: a) (i + 1) = Sparse.at a i := by
  simp [Sparse.at]

theorem Sparse.compact_nodup (f : Val → String) :
    ∀ a : Sparse,
      (∀ (i1 i2 : Nat) (v1 v2 : Val), i1 ≠ i2 → a.at i1 = some v1 → a.at i2 = some v2 →
        f v1 ≠ f v2) →
      (a.compact.map f).Nodup := by
  intro a
  induction a with
  | nil => intro _; simp [Sparse.compact]
  | cons o rest ih =>
    intro h
    have hrest : ((Sparse.compact rest).map f).Nodup := by
      apply ih
      intro i1 i2 v1 v2 hne h1 h2
      exact h (i1 + 1) (i2 + 1) v1 v2 (by omega)
        (by rw [Sparse.at_cons_succ]; exact h1) (by rw [Sparse.at_cons_succ]; exact h2)
    have hsplit : Sparse.compact (o :: rest) = Sparse.compact rest ∨
        ∃ v, o = some v ∧ Sparse.compact (o :: rest) = v :: Sparse.compact rest := by
      cases o with
      | none => left; simp [Sparse.compact]
      | some v =>
        by_cases hv : truthy v = true
        · right; exact ⟨v, rfl, by simp [Sparse.compact, hv]⟩
        · left; simp [Sparse.compact, hv]
    rcases hsplit with e | ⟨v, hv, e⟩
    · rw [e]; exact hrest
    · rw [e, List.map_cons, List.nodup_cons]
      refine ⟨?_, hrest⟩
      intro hmem
      obtain ⟨w, hw, hfw⟩ := List.mem_map.1 hmem
      obtain ⟨⟨i, hi⟩, _⟩ := (Sparse.mem_compact rest w).1 hw
      have h0 : Sparse.at (o :: rest) 0 = some v := by simp [Sparse.at, hv]
      have h1 : Sparse.at (o :: rest) (i + 1) = some w := by
        rw [Sparse.at_cons_succ]; exact hi
      exact h 0 (i + 1) v w (by omega) h0 h1 hfw.symm

theorem outer_pushed_distinct {n : Nat} {recur : List Val → List Val → Except Err (List Val)}
    (hrec : RecSpec n recur) (ext : Val) :
    ∀ (ms base app : List Val) (iso : Sparse) (res : List Val × Sparse),
      (∀ p ∈ base, isDesc (n + 1) p = true) → (∀ m ∈ ms, isDesc (n + 1) m = true) →
      (ms.map keyString).Nodup →
      outer recur ext base.length ms (base ++ app) iso = .ok res →
      ∀ (i1 i2 : Nat) (v1 v2 : Val), i1 ≠ i2 → iso.length ≤ i1 → iso.length ≤ i2 →
        (∀ p, base[i1]? = some p → touchedKey ext (keyOf p) ms = false) →
        (∀ p, base[i2]? = some p → touchedKey ext (keyOf p) ms = false) →
        res.2.at i1 = some v1 → res.2.at i2 = some v2 → keyString v1 ≠ keyString v2 := by
  intro ms
  induction ms with
  | nil =>
    intro base app iso res _ _ _ h i1 i2 v1 v2 _ hl1 _ _ _ h1 _
    simp only [outer] at h
    injection h with h
    subst h
    have : i1 < iso.length := Sparse.lt_length_of_at h1
    omega
  | cons m more ih =>
    intro base app iso res hbase hms hnd h i1 i2 v1 v2 hne hl1 hl2 hu1 hu2 h1 h2
    have hm : isDesc (n + 1) m = true := hms m (List.mem_cons_self _ _)
    have hmore : ∀ x ∈ more, isDesc (n + 1) x = true :=
      fun x hx => hms x (List.mem_cons_of_mem _ hx)
    have hnd' : (more.map keyString).Nodup := (List.nodup_cons.1 hnd).2
    have hnotin : ∀ w ∈ more, keyString m ≠ keyString w := by
      intro w hw he
      exact (List.nodup_cons.1 hnd).1 (by rw [he]; exact List.mem_map_of_mem _ hw)
    obtain ⟨st, hst, F⟩ := scan_spec hrec ext base 0 m iso false hbase hm
    have hkeys := scan_keys_map F
    rw [outer_cons_eq recur ext m more base app iso st hst] at h
    -- an untouched slot is not matched by `m` and stays untouched afterwards
    have hun : ∀ i : Nat, (∀ p, base[i]? = some p → touchedKey ext (keyOf p) (m :: more) = false) →
        (∀ p1, st.1[i]? = some p1 → touchedKey ext (keyOf p1) more = false) ∧
        st.2.2.1.at i = iso.at i := by
      intro i hu
      constructor
      · intro p1 hp1
        obtain ⟨p, hp, hk⟩ := keys_at' hkeys i p1 hp1
        have ht := hu p hp
        simp only [touchedKey, Bool.or_eq_false_iff] at ht
        rw [hk]; exact ht.2
      · cases hb : base[i]? with
        | none =>
          have hi : base.length ≤ i := List.getElem?_eq_none_iff.1 hb
          exact F.iso_out i (Or.inr (by omega))
        | some p =>
          have ht := hu p hb
          simp only [touchedKey, Bool.or_eq_false_iff] at ht
          have e := F.iso_in i p hb
          simpa only [Nat.zero_add, ht.1, Bool.false_eq_true, if_false] using e
    have hnone : ∀ i : Nat, iso.length ≤ i → ∀ v, iso.at i ≠ some v := by
      intro i hi v hv
      have := Sparse.lt_length_of_at hv
      omega
    by_cases hf : st.2.2.2 = true
    · simp only [hf, if_true] at h
      rw [← F.length_eq] at h
      obtain ⟨base', iso', hout, G⟩ := outer_spec hrec ext more st.1 app st.2.2.1 F.desc hmore
      have hres : res.2 = iso' := by
        rw [hout] at h
        injection h with h
        rw [← h]
      have key : ∀ (i : Nat) (v : Val), iso.length ≤ i →
          (∀ p, base[i]? = some p → touchedKey ext (keyOf p) (m :: more) = false) →
          res.2.at i = some v → st.2.2.1.length ≤ i := by
        intro i v hl hu hv
        rw [hres] at hv
        rcases G.iso_at i v hv with ⟨p1, hp1, ht1, _⟩ | ⟨_, hh | ⟨_, hh⟩⟩
        · rw [(hun i hu).1 p1 hp1] at ht1
          exact absurd ht1 (by simp)
        · rw [(hun i hu).2] at hh
          exact absurd hh (hnone i hl v)
        · exact hh
      exact ih st.1 app st.2.2.1 res F.desc hmore hnd' h i1 i2 v1 v2 hne
        (key i1 v1 hl1 hu1 h1) (key i2 v2 hl2 hu2 h2) (hun i1 hu1).1 (hun i2 hu2).1 h1 h2
    · have hf' : st.2.2.2 = false := by simpa using hf
      have hany' : base.any (fun p => matchesKey m (keyOf p)) = false := by
        have := F.found_eq
        rw [hf'] at this
        simpa using this.symm
      obtain ⟨hm1, hiso⟩ := F.no_match hany'
      simp only [hf', Bool.false_eq_true, if_false, hm1, hiso] at h
      rw [← F.length_eq, List.append_assoc st.1] at h
      obtain ⟨base', iso', hout, G⟩ :=
        outer_spec hrec ext more st.1 (app ++ [m]) (iso.push m) F.desc hmore
      have hres : res.2 = iso' := by
        rw [hout] at h
        injection h with h
        rw [← h]
      have key : ∀ (i : Nat) (v : Val), iso.length ≤ i →
          (∀ p, base[i]? = some p → touchedKey ext (keyOf p) (m :: more) = false) →
          res.2.at i = some v →
          (i = iso.length ∧ v = m) ∨ (v ∈ more ∧ (iso.push m).length ≤ i) := by
        intro i v hl hu hv
        rw [hres] at hv
        rcases G.iso_at i v hv with ⟨p1, hp1, ht1, _⟩ | ⟨_, hh | ⟨hh1, hh2⟩⟩
        · rw [(hun i hu).1 p1 hp1] at ht1
          exact absurd ht1 (by simp)
        · rw [Sparse.at_push] at hh
          by_cases hi : i = iso.length
          · left
            simp only [hi, if_true] at hh
            injection hh with hh
            exact ⟨hi, hh.symm⟩
          · simp only [hi, if_false] at hh
            exact absurd hh (hnone i hl v)
        · exact Or.inr ⟨unmatched_subset _ _ _ _ hh1, hh2⟩
      rcases key i1 v1 hl1 hu1 h1 with ⟨e1, w1⟩ | ⟨w1, l1⟩
      · rcases key i2 v2 hl2 hu2 h2 with ⟨e2, _⟩ | ⟨w2, _⟩
        · omega
        · rw [w1]; exact hnotin v2 w2
      · rcases key i2 v2 hl2 hu2 h2 with ⟨_, w2⟩ | ⟨_, l2⟩
        · rw [w2]; exact fun he => hnotin v1 w1 he.symm
        · exact ih st.1 (app ++ [m]) (iso.push m) res F.desc hmore hnd' h i1 i2 v1 v2 hne
            l1 l2 (hun i1 hu1).1 (hun i2 hu2).1 h1 h2

theorem nodup_index {l : List Val} {f : Val → String} (h : (l.map f).Nodup) {i1 i2 : Nat}
    {v1 v2 : Val} (hne : i1 ≠ i2) (h1 : l[i1]? = some v1) (h2 : l[i2]? = some v2) :
    f v1 ≠ f v2 := by
  intro he
  have hl1 : i1 < (l.map f).length := by
    rw [List.length_map]
    by_contra hc
    rw [List.getElem?_eq_none (Nat.le_of_not_lt hc)] at h1
    simp at h1
  have hl2 : i2 < (l.map f).length := by
    rw [List.length_map]
    by_contra hc
    rw [List.getElem?_eq_none (Nat.le_of_not_lt hc)] at h2
    simp at h2
  have e1 : (l.map f)[i1]? = some (f v1) := by simp [List.getElem?_map, h1]
  have e2 : (l.map f)[i2]? = some (f v2) := by simp [List.getElem?_map, h2]
  rcases Nat.lt_or_gt_of_ne hne with hlt | hgt
  · exact (List.nodup_iff_getElem?_ne_getElem?.1 h) i1 i2 hlt hl2 (by rw [e1, e2, he])
  · exact (List.nodup_iff_getElem?_ne_getElem?.1 h) i2 i1 hgt hl1 (by rw [e1, e2, he])

theorem keyString_eq_of_keyOf {v w : Val} (h : keyOf v = keyOf w) : keyString v = keyString w := by
  simp [keyString, h]

theorem map_keyOf_of_wellKeyed {n : Nat} {l : List Val} (h : ∀ x ∈ l, wellKeyed (n + 1) x = true) :
    l.map keyOf = (l.map keyString).map Val.str := by
  rw [List.map_map]
  apply List.map_congr_left
  intro x hx
  have hx' := h x hx
  obtain ⟨fs, rfl⟩ := wellKeyed_isObj hx'
  exact keyOf_eq_of_strKey ((wellKeyed_succ_obj n fs).1 hx').1

theorem extendProperties_wellKeyed_of_rec (self : Sector) (fuel : Nat)
    (hk : RecKeyed fuel (recurOf self fuel)) (props ms : List Val)
    (hp : WellKeyedList (fuel + 1) props) (hm : WellKeyedList (fuel + 1) ms) (ex : Val)
    (r : List Val) (h : extendProperties self fuel props (some ms) ex = .ok r) :
    WellKeyedList (fuel + 1) r := by
  have hrec := recSpec_recurOf self fuel
  have hpd : ∀ p ∈ props, isDesc (fuel + 1) p = true := fun p hx => wellKeyed_isDesc (hp.2 p hx)
  have hmd : ∀ m ∈ ms, isDesc (fuel + 1) m = true := fun m hx => wellKeyed_isDesc (hm.2 m hx)
  obtain ⟨base', iso', hout, G⟩ := outer_spec hrec self.extendBuilded ms props [] [] hpd hmd
  -- the result in terms of the loop
  have hr : r = if truthy ex then iso'.compact
      else base' ++ unmatched self.extendBuilded (props.map keyOf) ms := by
    rw [extendProperties_eq] at h
    simp only [extendWith, List.append_nil] at hout h
    simp only [hout, bind, Except.bind, pure, Except.pure] at h
    injection h with h
    exact h.symm
  -- every entry is well keyed
  have hall : ∀ p ∈ base' ++ [] ++ unmatched self.extendBuilded (props.map keyOf) ms,
      wellKeyed (fuel + 1) p = true :=
    outer_inv (fun v => wellKeyed (fuel + 1) v = true) (fun v hv => wellKeyed_isObj hv)
      (fun m p m1 hm' hp' hit hmn => wellKeyed_step hk self.extendBuilded m p m1 hm' hp' hit hmn)
      props.length ms (props ++ []) [] _ (by simpa using hp.2) hm.2 hout
  simp only [List.append_nil] at hall
  -- the keys
  have hkeys : props.map keyOf = (props.map keyString).map Val.str := map_keyOf_of_wellKeyed hp.2
  have hbase : base'.map keyString = props.map keyString := by
    have h1 : base'.map keyOf = props.map keyOf := by
      rw [G.keys]
      apply List.map_congr_left
      intro p hx
      have hx' := hp.2 p hx
      obtain ⟨fs, rfl⟩ := wellKeyed_isObj hx'
      rw [keyOf_eq_of_strKey ((wellKeyed_succ_obj fuel fs).1 hx').1]
      exact finalKey_wellKeyed _ _ ms hm.2
    apply List.ext_getElem?
    intro i
    have h2 := congrArg (fun l => l[i]?) h1
    simp only [List.getElem?_map] at h2 ⊢
    cases hb : base'[i]? with
    | none =>
      rw [hb] at h2
      cases hq : props[i]? with
      | none => rfl
      | some q => rw [hq] at h2; simp at h2
    | some b =>
      rw [hb] at h2
      cases hq : props[i]? with
      | none => rw [hq] at h2; simp at h2
      | some q =>
        rw [hq] at h2
        simp only [Option.map_some', Option.some.injEq] at h2 ⊢
        exact keyString_eq_of_keyOf h2
  have hU : unmatched self.extendBuilded (props.map keyOf) ms =
      ms.filter (fun m => !((props.map keyString).contains (keyString m))) := by
    rw [hkeys]; exact unmatched_wellKeyed _ ms _ hm.2
  have hUnotin : ∀ u ∈ unmatched self.extendBuilded (props.map keyOf) ms,
      keyString u ∉ props.map keyString := by
    intro u hu
    rw [hU, List.mem_filter] at hu
    simpa using hu.2
  have hUnd : ((unmatched self.extendBuilded (props.map keyOf) ms).map keyString).Nodup :=
    List.Nodup.sublist ((unmatched_sublist _ ms _).map keyString) hm.1
  rw [hr]
  by_cases hex : truthy ex = true
  · simp only [hex, if_true]
    refine ⟨?_, ?_⟩
    · apply Sparse.compact_nodup
      intro i1 i2 v1 v2 hne h1 h2
      rcases G.iso_at i1 v1 h1 with ⟨_, _, _, b1⟩ | ⟨u1, c1 | ⟨c1, _⟩⟩
      · rcases G.iso_at i2 v2 h2 with ⟨_, _, _, b2⟩ | ⟨u2, c2 | ⟨c2, _⟩⟩
        · exact nodup_index (by rw [hbase]; exact hp.1) hne b1 b2
        · simp [Sparse.at] at c2
        · intro he
          apply hUnotin v2 c2
          rw [← he, ← hbase]
          exact List.mem_map_of_mem _ (List.getElem?_mem b1)
      · simp [Sparse.at] at c1
      · rcases G.iso_at i2 v2 h2 with ⟨_, _, _, b2⟩ | ⟨u2, c2 | ⟨c2, _⟩⟩
        · intro he
          apply hUnotin v1 c1
          rw [he, ← hbase]
          exact List.mem_map_of_mem _ (List.getElem?_mem b2)
        · simp [Sparse.at] at c2
        · exact outer_pushed_distinct hrec self.extendBuilded ms props [] [] _ hpd hmd hm.1 hout
            i1 i2 v1 v2 hne (Nat.zero_le _) (Nat.zero_le _) u1 u2 h1 h2
    · intro x hx
      obtain ⟨⟨i, hi⟩, _⟩ := (Sparse.mem_compact iso' x).1 hx
      rcases G.iso_at i x hi with ⟨_, _, _, b⟩ | ⟨_, c | ⟨c, _⟩⟩
      · exact hall x (List.mem_append_left _ (List.getElem?_mem b))
      · simp [Sparse.at] at c
      · exact hall x (List.mem_append_right _ c)
  · have hex' : truthy ex = false := by simpa using hex
    simp only [hex', Bool.false_eq_true, if_false]
    refine ⟨?_, hall⟩
    rw [List.map_append, List.nodup_append]
    refine ⟨by rw [hbase]; exact hp.1, hUnd, ?_⟩
    intro a ha hb
    obtain ⟨u, hu, rfl⟩ := List.mem_map.1 hb
    rw [hbase] at ha
    exact hUnotin u hu ha

theorem recKeyed_recurOf (self : Sector) : ∀ fuel, RecKeyed fuel (recurOf self fuel) := by
  intro fuel
  induction fuel with
  | zero =>
    intro b o r _ _ h
    simp [recurOf] at h
  | succ f ih =>
    intro b o r hb ho h
    exact extendProperties_wellKeyed_of_rec self f ih b o hb ho (.num 1) r h

/-! ## Properties of the specification -/

/-- C1 (as stated, refuted): with base `[{property:"a"}]` and overrides
`[{id:"a", property:"b"}, {property:"a"}]`, each override entry matches the base entry as
handed in (so `k = 0`), yet the result has two entries: the merge of the first override gives
the base entry the key "b", and the second override is appended. -/
theorem c1_static_count_counterexample :
    extendProperties defaults 0 [.obj [("property", .str "a")]]
        (some [.obj [("id", .str "a"), ("property", .str "b")], .obj [("property", .str "a")]])
        .undefined
      = .ok [.obj [("property", .str "b"), ("id", .str "a")], .obj [("property", .str "a")]]
    ∧ unmatchedStatic [.obj [("property", .str "a")]]
        [.obj [("id", .str "a"), ("property", .str "b")], .obj [("property", .str "a")]] = [] := by
  constructor <;> rfl

/-- C1 (amended): for base and override lists of descriptor objects, the default mode
returns the `|props|` merged base slots followed by exactly the override entries that match
no base entry when their turn comes (the test being made against the keys of the base
entries as earlier merges left them), unmodified and in the order of the override list. -/
theorem c1_appends_unmatched (self : Sector) (fuel : Nat) (props moProps : List Val) (ex : Val)
    (hex : truthy ex = false)
    (hp : ∀ p ∈ props, isDesc (fuel + 1) p = true)
    (hm : ∀ m ∈ moProps, isDesc (fuel + 1) m = true) :
    ∃ merged,
      extendProperties self fuel props (some moProps) ex =
        .ok (merged ++ unmatched self.extendBuilded (props.map keyOf) moProps)
      ∧ merged.length = props.length
      ∧ (unmatched self.extendBuilded (props.map keyOf) moProps).Sublist moProps := by
  obtain ⟨base', iso', G, heq, _⟩ := extendProperties_spec self fuel props moProps hp hm
  refine ⟨base', ?_, G.length_eq, unmatched_sublist _ _ _⟩
  rw [heq ex]
  simp [hex]

/-- C1 (amended), instance: the base `[{property:"a"}]` with the overrides
`[{id:"a", property:"b"}, {property:"a"}]`. -/
theorem c1_appends_unmatched_witness :
    truthy .undefined = false
    ∧ (∀ p ∈ [Val.obj [("property", .str "a")]], isDesc (0 + 1) p = true)
    ∧ (∀ m ∈ [Val.obj [("id", .str "a"), ("property", .str "b")],
          Val.obj [("property", .str "a")]], isDesc (0 + 1) m = true)
    ∧ ∃ merged,
      extendProperties defaults 0 [.obj [("property", .str "a")]]
          (some [.obj [("id", .str "a"), ("property", .str "b")], .obj [("property", .str "a")]])
          .undefined =
        .ok (merged ++ unmatched defaults.extendBuilded
          ([Val.obj [("property", .str "a")]].map keyOf)
          [.obj [("id", .str "a"), ("property", .str "b")], .obj [("property", .str "a")]])
      ∧ merged.length = [Val.obj [("property", .str "a")]].length
      ∧ (unmatched defaults.extendBuilded ([Val.obj [("property", .str "a")]].map keyOf)
          [.obj [("id", .str "a"), ("property", .str "b")],
            .obj [("property", .str "a")]]).Sublist
          [.obj [("id", .str "a"), ("property", .str "b")], .obj [("property", .str "a")]] :=
  ⟨rfl, by decide, by decide,
    c1_appends_unmatched defaults 0 [.obj [("property", .str "a")]]
      [.obj [("id", .str "a"), ("property", .str "b")], .obj [("property", .str "a")]]
      .undefined rfl (by decide) (by decide)⟩

/-- C2: On a sector with the default flag, merging the base list `[{id:"x", properties:[{id:"a"}]}]`
with the override list `[{property:"x", properties:[{id:"a", label:"L"}]}]` returns exactly
one entry; it has id "x" and its nested list has exactly one entry, with id "a" and label "L". -/
theorem c2_nested_label_merged (self : Sector) (fuel : Nat)
    (hflag : self.extendBuilded = defaults.extendBuilded) :
    ∃ entry nested,
      extendProperties self (fuel + 1)
        [.obj [("id", .str "x"), ("properties", .arr [.obj [("id", .str "a")]])]]
        (some [.obj [("property", .str "x"),
          ("properties", .arr [.obj [("id", .str "a"), ("label", .str "L")]])]])
        .undefined = .ok [entry]
      ∧ getField entry "id" = .ok (.str "x")
      ∧ getField entry "properties" = .ok (.arr [nested])
      ∧ getField nested "id" = .ok (.str "a")
      ∧ getField nested "label" = .ok (.str "L") := by
  obtain ⟨i, n, o, b, e, p⟩ := self
  simp only [defaults] at hflag
  subst hflag
  cases fuel <;> exact ⟨_, _, rfl, rfl, rfl, rfl, rfl⟩

/-- C2, instance: the default sector with recursion budget 1. -/
theorem c2_nested_label_merged_witness :
    defaults.extendBuilded = defaults.extendBuilded
    ∧ ∃ entry nested,
      extendProperties defaults (0 + 1)
        [.obj [("id", .str "x"), ("properties", .arr [.obj [("id", .str "a")]])]]
        (some [.obj [("property", .str "x"),
          ("properties", .arr [.obj [("id", .str "a"), ("label", .str "L")]])]])
        .undefined = .ok [entry]
      ∧ getField entry "id" = .ok (.str "x")
      ∧ getField entry "properties" = .ok (.arr [nested])
      ∧ getField nested "id" = .ok (.str "a")
      ∧ getField nested "label" = .ok (.str "L") :=
  ⟨rfl, c2_nested_label_merged defaults 0 rfl⟩

/-- C3: For a descriptor with a truthy `extend` reference `e`, `checkExtend` returns the
template the factory builds for `e` (the empty descriptor when it builds none) overlaid with
the descriptor's fields other than `extend`: such a field keeps the descriptor's value, every
other key (in particular `extend`) has the template's value, so an `extend` carried by the
template is left unresolved. `{extend:"float", value:9}` resolves to the "float" template's
fields with `value` equal to 9. -/
theorem c3_checkExtend_overlays_template (factory : PropertyFactory) :
    (∀ (fs : Fields) (e : Val), own fs "extend" = some e → truthy e = true →
      ∃ rs, checkExtend factory (.obj fs) = .obj rs
        ∧ (∀ k v, k ≠ "extend" → own fs k = some v → own rs k = some v)
        ∧ (∀ k, k = "extend" ∨ own fs k = none →
            own rs k = own ((factory.build (.arr [e])).head?.getD []) k))
    ∧ (∃ rs, checkExtend factory (.obj [("extend", .str "float"), ("value", .num 9)]) = .obj rs
        ∧ own rs "value" = some (.num 9)
        ∧ ∀ k, k ≠ "value" →
            own rs k = own ((factory.build (.arr [.str "float"])).head?.getD []) k) := by
  have main : ∀ (fs : Fields) (e : Val), own fs "extend" = some e → truthy e = true →
      ∃ rs, checkExtend factory (.obj fs) = .obj rs
        ∧ (∀ k v, k ≠ "extend" → own fs k = some v → own rs k = some v)
        ∧ (∀ k, k = "extend" ∨ own fs k = none →
            own rs k = own ((factory.build (.arr [e])).head?.getD []) k) := by
    intro fs e hown ht
    refine ⟨_, checkExtend_obj factory fs e hown ht, ?_, ?_⟩
    · intro k v hk hv
      rw [own_copyInto, own_filter_ne]
      simp [hk, hv]
    · intro k hk
      rw [own_copyInto, own_filter_ne, own_copyInto]
      rcases hk with hk | hk
      · subst hk
        cases h : own ((factory.build (.arr [e])).head?.getD []) "extend" <;> simp [own]
      · by_cases hke : k = "extend"
        · subst hke
          cases h : own ((factory.build (.arr [e])).head?.getD []) "extend" <;> simp [own]
        · cases h : own ((factory.build (.arr [e])).head?.getD []) k <;> simp [own, hk, hke]
  refine ⟨main, ?_⟩
  obtain ⟨rs, h1, h2, h3⟩ := main [("extend", .str "float"), ("value", .num 9)] (.str "float")
    (by simp [own]) (by simp [truthy])
  refine ⟨rs, h1, h2 "value" _ (by decide) (by simp [own]), ?_⟩
  intro k hk
  apply h3
  by_cases hke : k = "extend"
  · exact Or.inl hke
  · right
    have h1 : ¬ "extend" = k := fun h => hke h.symm
    have h2 : ¬ "value" = k := fun h => hk h.symm
    simp [own, h1, h2]

/-- C3, instance: the descriptor `{extend:"float", value:9}` with a factory that builds
`{property:"float", value:1}`. -/
theorem c3_checkExtend_overlays_template_witness :
    own [("extend", Val.str "float"), ("value", Val.num 9)] "extend" = some (.str "float")
    ∧ truthy (.str "float") = true
    ∧ ∃ rs, checkExtend ⟨fun _ => [[("property", .str "float"), ("value", .num 1)]]⟩
          (.obj [("extend", .str "float"), ("value", .num 9)]) = .obj rs
        ∧ (∀ k v, k ≠ "extend" → own [("extend", Val.str "float"), ("value", Val.num 9)] k = some v →
            own rs k = some v)
        ∧ (∀ k, k = "extend" ∨ own [("extend", Val.str "float"), ("value", Val.num 9)] k = none →
            own rs k = own [("property", .str "float"), ("value", .num 1)] k) :=
  ⟨rfl, rfl, (c3_checkExtend_overlays_template
      ⟨fun _ => [[("property", .str "float"), ("value", .num 1)]]⟩).1
    [("extend", .str "float"), ("value", .num 9)] (.str "float") rfl rfl⟩

/-- C4 (as stated, refuted): in isolated mode, with base `[{property:"a"}]` and the override
`[{property:"zz"}]`, which matches nothing, the override entry itself is returned; and with
base `[a, b]` and overrides `[b, a]`, the two merge results come back in the order of the
base list, not of the override list. -/
theorem c4_isolated_counterexample :
    extendProperties defaults 0 [.obj [("property", .str "a")]]
        (some [.obj [("property", .str "zz")]]) (.bool true)
      = .ok [.obj [("property", .str "zz")]]
    ∧ unmatchedStatic [.obj [("property", .str "a")]] [.obj [("property", .str "zz")]]
      = [.obj [("property", .str "zz")]]
    ∧ extendProperties defaults 0
        [.obj [("property", .str "a")], .obj [("property", .str "b")]]
        (some [.obj [("property", .str "b"), ("x", .num 1)],
          .obj [("property", .str "a"), ("x", .num 2)]]) (.bool true)
      = .ok [.obj [("property", .str "a"), ("x", .num 2)],
          .obj [("property", .str "b"), ("x", .num 1)]] := by
  refine ⟨?_, ?_, ?_⟩ <;> rfl

/-- C4 (amended): for base and override lists of descriptor objects, every entry returned in
isolated mode is either the merge result standing at a base position that some override
entry matched, or an override entry that matched no base entry; and the merge result at
every matched base position is returned. (`ps` is the result of the default mode.) -/
theorem c4_isolated_entries (self : Sector) (fuel : Nat) (props moProps : List Val) (ex : Val)
    (hex : truthy ex = true)
    (hp : ∀ p ∈ props, isDesc (fuel + 1) p = true)
    (hm : ∀ m ∈ moProps, isDesc (fuel + 1) m = true) :
    ∃ ps iso,
      extendProperties self fuel props (some moProps) .undefined = .ok ps
      ∧ extendProperties self fuel props (some moProps) ex = .ok iso
      ∧ (∀ x ∈ iso,
          (∃ (i : Nat) (p : Val), props[i]? = some p
            ∧ touchedKey self.extendBuilded (keyOf p) moProps = true ∧ ps[i]? = some x)
          ∨ x ∈ unmatched self.extendBuilded (props.map keyOf) moProps)
      ∧ (∀ (i : Nat) (p : Val), props[i]? = some p →
          touchedKey self.extendBuilded (keyOf p) moProps = true →
          ∃ x, ps[i]? = some x ∧ x ∈ iso) := by
  obtain ⟨base', iso', G, heq, _⟩ := extendProperties_spec self fuel props moProps hp hm
  have hget : ∀ (i : Nat) (x : Val), base'[i]? = some x →
      (base' ++ unmatched self.extendBuilded (props.map keyOf) moProps)[i]? = some x := by
    intro i x hx
    have hi : i < base'.length := by
      by_contra hc
      rw [List.getElem?_eq_none (Nat.le_of_not_lt hc)] at hx
      simp at hx
    rw [List.getElem?_append_left hi]; exact hx
  refine ⟨_, _, heq .undefined, heq ex, ?_, ?_⟩
  · simp only [hex, if_true, truthy_undefined, Bool.false_eq_true, if_false]
    intro x hx
    obtain ⟨⟨i, hi⟩, _⟩ := (Sparse.mem_compact iso' x).1 hx
    rcases G.iso_at i x hi with ⟨p, hp1, ht, hb⟩ | ⟨_, h | ⟨h, _⟩⟩
    · exact Or.inl ⟨i, p, hp1, ht, hget i x hb⟩
    · simp [Sparse.at] at h
    · exact Or.inr h
  · simp only [hex, if_true, truthy_undefined, Bool.false_eq_true, if_false]
    intro i p hp1 ht
    have h1 := G.iso_touched i p hp1 ht
    have hi : i < base'.length := by
      rw [G.length_eq]
      by_contra hc
      rw [List.getElem?_eq_none (Nat.le_of_not_lt hc)] at hp1
      simp at hp1
    have hx : base'[i]? = some base'[i] := List.getElem?_eq_getElem hi
    refine ⟨base'[i], hget i _ hx, ?_⟩
    rw [Sparse.mem_compact]
    refine ⟨⟨i, by rw [h1, hx]⟩, ?_⟩
    obtain ⟨fs, hfs⟩ := isDesc_isObj (G.desc _ (List.getElem?_mem hx))
    rw [hfs]; rfl

/-- C4 (amended), instance: the base `[a, b]` with the overrides `[b, zz]`. -/
theorem c4_isolated_entries_witness :
    truthy (.bool true) = true
    ∧ (∀ p ∈ [Val.obj [("property", .str "a")], Val.obj [("property", .str "b")]],
        isDesc (0 + 1) p = true)
    ∧ (∀ m ∈ [Val.obj [("property", .str "b"), ("x", .num 1)],
          Val.obj [("property", .str "zz")]], isDesc (0 + 1) m = true)
    ∧ ∃ ps iso,
      extendProperties defaults 0 [.obj [("property", .str "a")], .obj [("property", .str "b")]]
          (some [.obj [("property", .str "b"), ("x", .num 1)], .obj [("property", .str "zz")]])
          .undefined = .ok ps
      ∧ extendProperties defaults 0
          [.obj [("property", .str "a")], .obj [("property", .str "b")]]
          (some [.obj [("property", .str "b"), ("x", .num 1)], .obj [("property", .str "zz")]])
          (.bool true) = .ok iso
      ∧ (∀ x ∈ iso,
          (∃ (i : Nat) (p : Val),
            [Val.obj [("property", .str "a")], Val.obj [("property", .str "b")]][i]? = some p
            ∧ touchedKey defaults.extendBuilded (keyOf p)
              [.obj [("property", .str "b"), ("x", .num 1)], .obj [("property", .str "zz")]]
                = true
            ∧ ps[i]? = some x)
          ∨ x ∈ unmatched defaults.extendBuilded
              ([Val.obj [("property", .str "a")], Val.obj [("property", .str "b")]].map keyOf)
              [.obj [("property", .str "b"), ("x", .num 1)], .obj [("property", .str "zz")]])
      ∧ (∀ (i : Nat) (p : Val),
          [Val.obj [("property", .str "a")], Val.obj [("property", .str "b")]][i]? = some p →
          touchedKey defaults.extendBuilded (keyOf p)
            [.obj [("property", .str "b"), ("x", .num 1)], .obj [("property", .str "zz")]]
              = true →
          ∃ x, ps[i]? = some x ∧ x ∈ iso) :=
  ⟨rfl, by decide, by decide,
    c4_isolated_entries defaults 0 [.obj [("property", .str "a")], .obj [("property", .str "b")]]
      [.obj [("property", .str "b"), ("x", .num 1)], .obj [("property", .str "zz")]]
      (.bool true) rfl (by decide) (by decide)⟩

/-- C5 (failing input): with base `[{property:"a"}]` and the two overrides
`[{property:"zz"}, {property:"a"}]`, the isolated mode returns one entry, not two: the
unmatched first override is pushed to slot 0 of the isolated array and then overwritten by
the merge of the second one at base index 0. -/
theorem c5_isolated_drops_entry (fuel : Nat) :
    extendProperties defaults fuel [.obj [("property", .str "a")]]
      (some [.obj [("property", .str "zz")], .obj [("property", .str "a")]]) (.bool true)
      = .ok [.obj [("property", .str "a")]] := by
  cases fuel <;> rfl

/-- C6 (as stated, refuted): with an empty base list and the override list
`[{id:"a", property:"a"}, {id:"a", property:"a"}]` both entries are appended, so the result
holds the same identifier twice. -/
theorem c6_duplicate_counterexample :
    extendProperties defaults 0 []
        (some [.obj [("id", .str "a"), ("property", .str "a")],
          .obj [("id", .str "a"), ("property", .str "a")]]) .undefined
      = .ok [.obj [("id", .str "a"), ("property", .str "a")],
          .obj [("id", .str "a"), ("property", .str "a")]]
    ∧ ¬ (([.obj [("id", .str "a"), ("property", .str "a")],
          .obj [("id", .str "a"), ("property", .str "a")]] : List Val).map keyString).Nodup := by
  constructor
  · rfl
  · decide

/-- C6 (amended): when the base list and the override list consist of descriptor objects
that have, at every nesting level, a string key (`property`), an `id` absent or equal to it,
and pairwise distinct keys within each list, the list returned by `extendProperties` (in
either mode) has pairwise distinct keys at the top level, and every returned entry is again
such an object, so the keys inside each of its nested `properties` lists are pairwise
distinct as well. -/
theorem c6_distinct_keys (self : Sector) (fuel : Nat) (props moProps : List Val) (ex : Val)
    (hp1 : (props.map keyString).Nodup) (hp2 : ∀ p ∈ props, wellKeyed (fuel + 1) p = true)
    (hm1 : (moProps.map keyString).Nodup) (hm2 : ∀ m ∈ moProps, wellKeyed (fuel + 1) m = true) :
    ∃ r, extendProperties self fuel props (some moProps) ex = .ok r
      ∧ (r.map keyString).Nodup
      ∧ ∀ x ∈ r, wellKeyed (fuel + 1) x = true := by
  obtain ⟨base', iso', _, heq, _⟩ := extendProperties_spec self fuel props moProps
    (fun p hx => wellKeyed_isDesc (hp2 p hx)) (fun m hx => wellKeyed_isDesc (hm2 m hx))
  have h := extendProperties_wellKeyed_of_rec self fuel (recKeyed_recurOf self fuel) props moProps
    ⟨hp1, hp2⟩ ⟨hm1, hm2⟩ ex _ (heq ex)
  exact ⟨_, heq ex, h.1, h.2⟩

/-- C6 (amended), instance: a base entry "a" with the nested entry "x", merged with the
overrides "a" (nested "x" and "y") and "b". -/
theorem c6_distinct_keys_witness :
    (([.obj [("property", .str "a"), ("properties", .arr [.obj [("property", .str "x")]])]]
        : List Val).map keyString).Nodup
    ∧ (∀ p ∈ ([.obj [("property", .str "a"),
          ("properties", .arr [.obj [("property", .str "x")]])]] : List Val),
        wellKeyed (1 + 1) p = true)
    ∧ (([.obj [("property", .str "a"), ("properties",
          .arr [.obj [("property", .str "x"), ("v", .num 1)], .obj [("property", .str "y")]])],
        .obj [("property", .str "b")]] : List Val).map keyString).Nodup
    ∧ (∀ m ∈ ([.obj [("property", .str "a"), ("properties",
          .arr [.obj [("property", .str "x"), ("v", .num 1)], .obj [("property", .str "y")]])],
        .obj [("property", .str "b")]] : List Val), wellKeyed (1 + 1) m = true)
    ∧ ∃ r, extendProperties defaults 1
        [.obj [("property", .str "a"), ("properties", .arr [.obj [("property", .str "x")]])]]
        (some [.obj [("property", .str "a"), ("properties",
          .arr [.obj [("property", .str "x"), ("v", .num 1)], .obj [("property", .str "y")]])],
        .obj [("property", .str "b")]]) .undefined = .ok r
      ∧ (r.map keyString).Nodup
      ∧ ∀ x ∈ r, wellKeyed (1 + 1) x = true :=
  ⟨by decide, by decide, by decide, by decide,
    c6_distinct_keys defaults 1
      [.obj [("property", .str "a"), ("properties", .arr [.obj [("property", .str "x")]])]]
      [.obj [("property", .str "a"), ("properties",
          .arr [.obj [("property", .str "x"), ("v", .num 1)], .obj [("property", .str "y")]])],
        .obj [("property", .str "b")]] .undefined
      (by decide) (by decide) (by decide) (by decide)⟩

/-- C7 (failing input): a sector built from `{properties: ["float"]}` with no built-in
properties requested hands the raw string "float" to the child collection: the factory is
not consulted, for any factory. -/
theorem c7_string_shorthand_kept (tbl : CaseTable) (factory : PropertyFactory) (fuel : Nat) :
    (initSector tbl factory fuel { defaults with properties := .array [.str "float"] }).map
      Sector.getProperties = .ok [.str "float"] := by
  cases fuel <;> rfl

/-- C8 (failing input): a sector built from `{properties: [null]}` with no built-in
properties requested hands the `null` entry to the child collection; and with the built-in
"float" requested from a factory that builds one template, construction stops with a
`TypeError`. -/
theorem c8_null_entry_kept_or_fault (tbl : CaseTable) (factory : PropertyFactory) (fuel : Nat) :
    (initSector tbl factory fuel { defaults with properties := .array [.null] }).map
      Sector.getProperties = .ok [.null]
    ∧ (initSector tbl ⟨fun _ => [[("property", .str "float")]]⟩ fuel
        { defaults with buildProps := .arr [.str "float"], properties := .array [.null] }).map
      Sector.getProperties = .error .typeError := by
  constructor <;> cases fuel <;> rfl

/-- C9 (as stated, refuted): with the name "İ" (U+0130) and no identifier, the derived
identifier has two code points (`i` followed by U+0307) while the name has one. -/
theorem c9_length_counterexample :
    (initSector
        (fun _ c _ => if c = Char.ofNat 0x130 then ('i', [Char.ofNat 0x307]) else (c, []))
        ⟨fun _ => []⟩ 0 { defaults with name := String.mk [Char.ofNat 0x130] }).map
      (fun s => s.getId.length) = .ok 2
    ∧ (String.mk [Char.ofNat 0x130]).length = 1 := by
  constructor <;> rfl

/-- C9 (amended): for a sector specification with name `n` and no identifier, every sector
returned by construction has as identifier `n.replace(/ /g, '_').toLowerCase()`: `n` with
each space replaced by an underscore, then each code point lower-cased by the host in its
context; when `n` is ASCII this is the character-wise image of `n` (space to underscore,
capital to small letter) and has the same length as `n`. Construction does return when no
built-in is requested. -/
theorem c9_id_derived_from_name (tbl : CaseTable) (factory : PropertyFactory) (fuel : Nat)
    (prp : Sector) (hid : prp.id = "") :
    (∀ s, initSector tbl factory fuel prp = .ok s →
      s.getId.data = lowerFrom tbl [] (prp.name.data.map (fun c => if c = ' ' then '_' else c))
      ∧ ((∀ c ∈ prp.name.data, c.toNat < 128) →
          s.getId.data = prp.name.data.map (fun c => if c = ' ' then '_' else c.toLower)
          ∧ s.getId.length = prp.name.length))
    ∧ (buildProperties factory prp.buildProps = [] →
        ∃ s, initSector tbl factory fuel prp = .ok s) := by
  refine ⟨?_, initSector_ok_of_no_builtins tbl factory fuel prp⟩
  intro s hs
  have h := (initSector_id tbl factory fuel prp s hs).1
  simp only [hid, if_true] at h
  have hd : s.getId.data =
      lowerFrom tbl [] (prp.name.data.map (fun c => if c = ' ' then '_' else c)) := by
    simp only [Sector.getId, h, toLowerCase_replaceSpaces_data]
  refine ⟨hd, fun hascii => ?_⟩
  have hm : s.getId.data = prp.name.data.map (fun c => if c = ' ' then '_' else c.toLower) := by
    simp only [Sector.getId, h, toLowerCase_replaceSpaces_ascii tbl prp.name hascii]
  refine ⟨hm, ?_⟩
  show s.getId.data.length = prp.name.data.length
  rw [hm, List.length_map]

/-- C9 (amended), instance: the name "My Sector". -/
theorem c9_id_derived_from_name_witness :
    ({ defaults with name := "My Sector" } : Sector).id = ""
    ∧ (∀ s, initSector (fun _ c _ => (c, [])) ⟨fun _ => []⟩ 0
        { defaults with name := "My Sector" } = .ok s →
      s.getId.data = lowerFrom (fun _ c _ => (c, [])) []
        ("My Sector".data.map (fun c => if c = ' ' then '_' else c))
      ∧ ((∀ c ∈ "My Sector".data, c.toNat < 128) →
          s.getId.data = "My Sector".data.map (fun c => if c = ' ' then '_' else c.toLower)
          ∧ s.getId.length = "My Sector".length))
    ∧ (buildProperties ⟨fun _ => []⟩ (Val.str "") = [] →
        ∃ s, initSector (fun _ c _ => (c, [])) ⟨fun _ => []⟩ 0
          { defaults with name := "My Sector" } = .ok s) :=
  ⟨rfl, c9_id_derived_from_name (fun _ c _ => (c, [])) ⟨fun _ => []⟩ 0
    { defaults with name := "My Sector" } rfl⟩

/-- C10 (as stated, refuted): a sector built from a specification with neither identifier
nor name has the empty string as identifier. -/
theorem c10_empty_id_counterexample :
    (initSector (fun _ c _ => (c, [])) ⟨fun _ => []⟩ 0 defaults).map Sector.getId = .ok "" := by
  rfl

/-- C10 (amended): for a sector specification with a non-empty identifier or a non-empty
name, every sector returned by construction has a non-empty identifier. Construction does
return when no built-in is requested. -/
theorem c10_id_nonempty (tbl : CaseTable) (factory : PropertyFactory) (fuel : Nat)
    (prp : Sector) (hne : prp.id ≠ "" ∨ prp.name ≠ "") :
    (∀ s, initSector tbl factory fuel prp = .ok s → s.getId ≠ "")
    ∧ (buildProperties factory prp.buildProps = [] →
        ∃ s, initSector tbl factory fuel prp = .ok s) := by
  refine ⟨?_, initSector_ok_of_no_builtins tbl factory fuel prp⟩
  intro s hs
  have h := (initSector_id tbl factory fuel prp s hs).1
  by_cases hid : prp.id = ""
  · have hname : prp.name ≠ "" := by
      rcases hne with h1 | h1
      · exact absurd hid h1
      · exact h1
    simp only [hid, if_true] at h
    intro he
    have hd : s.getId.data = [] := by rw [he]
    rw [show s.getId = s.id from rfl, h, toLowerCase_replaceSpaces_data] at hd
    have hcs : prp.name.data = [] := List.map_eq_nil_iff.1 (lowerFrom_eq_nil tbl [] _ hd)
    apply hname
    have : prp.name = String.mk prp.name.data := rfl
    rw [this, hcs]
  · simp only [hid, if_false] at h
    show s.id ≠ ""
    rw [h]
    exact hid

/-- C10 (amended), instance: the name "Typography". -/
theorem c10_id_nonempty_witness :
    (({ defaults with name := "Typography" } : Sector).id ≠ ""
      ∨ ({ defaults with name := "Typography" } : Sector).name ≠ "")
    ∧ (∀ s, initSector (fun _ c _ => (c, [])) ⟨fun _ => []⟩ 0 { defaults with name := "Typography" }
        = .ok s → s.getId ≠ "")
    ∧ (buildProperties ⟨fun _ => []⟩ (Val.str "") = [] →
        ∃ s, initSector (fun _ c _ => (c, [])) ⟨fun _ => []⟩ 0 { defaults with name := "Typography" }
          = .ok s) :=
  ⟨Or.inr (by decide),
    c10_id_nonempty (fun _ c _ => (c, [])) ⟨fun _ => []⟩ 0 { defaults with name := "Typography" }
      (Or.inr (by decide))⟩

theorem initSector_collection (tbl : CaseTable) (factory : PropertyFactory) (fuel : Nat)
    (prp s : Sector) (h : initSector tbl factory fuel prp = .ok s) :
    ∃ c, s.properties = .collection c := by
  simp only [initSector, truthy_arr, Bool.not_true, Bool.false_eq_true, if_false, bind,
    Except.bind, pure, Except.pure] at h
  split at h
  · exact absurd h (by simp)
  · injection h with h
    subst h
    exact ⟨_, rfl⟩

theorem truthy_of_isObj {v : Val} (h : isObj v = true) : truthy v = true := by
  cases v <;> simp [isObj] at h
  rfl

theorem head?_filter_append (f : Val → Bool) (pre post : List Val) (m : Val)
    (hpre : ∀ x ∈ pre, f x = false) (hm : f m = true) :
    ((pre ++ m :: post).filter f).head? = some m := by
  have h1 : pre.filter f = [] := by
    rw [List.filter_eq_nil_iff]
    intro x hx
    simp [hpre x hx]
  simp [List.filter_append, h1, List.filter_cons, hm]

/-- C11: For a sector whose properties are held by its child collection (as they are after
construction) and whose property models are objects, `getProperty(id)` returns the first
model, in `getProperties()` order, whose `id` attribute is strictly equal to `id`, and
returns `null`, without a fault, when no model has that `id`. -/
theorem c11_getProperty_first_or_null (get : Val → String → Val) (self : Sector) (id : String)
    (c : Properties) (hc : self.properties = .collection c)
    (hobj : ∀ x ∈ c.models, isObj x = true) :
    (∀ pre m post, self.getProperties = pre ++ m :: post →
        (∀ x ∈ pre, strictEq (get x "id") (.str id) = false) →
        strictEq (get m "id") (.str id) = true →
        self.getProperty get (.str id) = .ok m)
    ∧ ((∀ x ∈ self.getProperties, strictEq (get x "id") (.str id) = false) →
        self.getProperty get (.str id) = .ok .null)
    ∧ (∀ tbl factory fuel prp, initSector tbl factory fuel prp = .ok self →
        ∃ c', self.properties = .collection c') := by
  have hgp : self.getProperties = c.models := by simp [Sector.getProperties, hc]
  refine ⟨?_, ?_, ?_⟩
  · intro pre m post hsplit hpre hm
    have hmem : m ∈ c.models := by rw [← hgp, hsplit]; simp
    have ht : truthy m = true := truthy_of_isObj (hobj m hmem)
    simp only [Sector.getProperty, hc, hsplit,
      head?_filter_append (fun prop => strictEq (get prop "id") (.str id)) pre post m hpre hm,
      Option.getD_some, ht, if_true]
  · intro hnone
    have h1 : self.getProperties.filter (fun prop => strictEq (get prop "id") (.str id)) = [] := by
      rw [List.filter_eq_nil_iff]
      intro x hx
      simp [hnone x hx]
    simp [Sector.getProperty, hc, h1]
  · intro tbl factory fuel prp h
    exact initSector_collection tbl factory fuel prp self h

/-- C11, instance: a collection of two models with ids "a" and "b", read by field. -/
theorem c11_getProperty_first_or_null_witness :
    ({ defaults with properties := .collection ⟨[.obj [("id", .str "a")],
        .obj [("id", .str "b")]]⟩ } : Sector).properties
      = .collection ⟨[.obj [("id", .str "a")], .obj [("id", .str "b")]]⟩
    ∧ (∀ x ∈ [Val.obj [("id", .str "a")], Val.obj [("id", .str "b")]], isObj x = true)
    ∧ ({ defaults with properties := .collection ⟨[.obj [("id", .str "a")],
        .obj [("id", .str "b")]]⟩ } : Sector).getProperty peek (.str "b")
      = .ok (.obj [("id", .str "b")]) :=
  ⟨rfl, by decide,
    (c11_getProperty_first_or_null peek
      { defaults with properties := .collection ⟨[.obj [("id", .str "a")],
        .obj [("id", .str "b")]]⟩ } "b"
      ⟨[.obj [("id", .str "a")], .obj [("id", .str "b")]]⟩ rfl (by decide)).1
      [.obj [("id", .str "a")]] (.obj [("id", .str "b")]) [] rfl (by decide) rfl⟩

/-- C12: Immediately after `setOpen(v)`, `isOpen()` returns the boolean coercion of `v`. -/
theorem c12_isOpen_after_setOpen (self : Sector) (v : Val) :
    (self.setOpen v).isOpen = truthy v := rfl

theorem touchedKey_of_no_match (ext key : Val) :
    ∀ ms : List Val, (∀ m ∈ ms, matchesKey m key = false) → touchedKey ext key ms = false := by
  intro ms
  induction ms with
  | nil => intro _; rfl
  | cons m more ih =>
    intro h
    have hm := h m (List.mem_cons_self _ _)
    simp only [touchedKey, hm, Bool.false_or, stepKey, Bool.false_eq_true, if_false]
    exact ih (fun x hx => h x (List.mem_cons_of_mem _ hx))

/-- C13: In the default mode the base slots keep their indices: the result is at least as
long as the base list, what follows the first `|props|` slots are override entries in the
order of the override list, and a base entry that no override entry matches stands at its
index unchanged. -/
theorem c13_base_order_kept (self : Sector) (fuel : Nat) (props moProps : List Val) (ex : Val)
    (hex : truthy ex = false)
    (hp : ∀ p ∈ props, isDesc (fuel + 1) p = true)
    (hm : ∀ m ∈ moProps, isDesc (fuel + 1) m = true) :
    ∃ r, extendProperties self fuel props (some moProps) ex = .ok r
      ∧ props.length ≤ r.length
      ∧ (r.drop props.length).Sublist moProps
      ∧ ∀ (i : Nat) (p : Val), props[i]? = some p →
          (∀ m ∈ moProps, matchesKey m (keyOf p) = false) → r[i]? = some p := by
  obtain ⟨base', iso', G, heq, _⟩ := extendProperties_spec self fuel props moProps hp hm
  refine ⟨base' ++ unmatched self.extendBuilded (props.map keyOf) moProps, ?_, ?_, ?_, ?_⟩
  · rw [heq ex]; simp [hex]
  · rw [List.length_append, G.length_eq]; omega
  · rw [← G.length_eq, List.drop_left']
    · exact unmatched_sublist _ _ _
    · rfl
  · intro i p hi hno
    have hk := G.kept i p hi (touchedKey_of_no_match _ _ moProps hno)
    have hlt : i < base'.length := by
      by_contra hc
      rw [List.getElem?_eq_none (Nat.le_of_not_lt hc)] at hk
      simp at hk
    rw [List.getElem?_append_left hlt]; exact hk

/-- C13, instance: the base `[a, b]` with the overrides `[b, zz]`; the entry `a` is matched by
neither. -/
theorem c13_base_order_kept_witness :
    truthy .undefined = false
    ∧ (∀ p ∈ [Val.obj [("property", .str "a")], Val.obj [("property", .str "b")]],
        isDesc (0 + 1) p = true)
    ∧ (∀ m ∈ [Val.obj [("property", .str "b"), ("x", .num 1)],
          Val.obj [("property", .str "zz")]], isDesc (0 + 1) m = true)
    ∧ ∃ r, extendProperties defaults 0
          [.obj [("property", .str "a")], .obj [("property", .str "b")]]
          (some [.obj [("property", .str "b"), ("x", .num 1)], .obj [("property", .str "zz")]])
          .undefined = .ok r
      ∧ [Val.obj [("property", .str "a")], Val.obj [("property", .str "b")]].length ≤ r.length
      ∧ (r.drop [Val.obj [("property", .str "a")], Val.obj [("property", .str "b")]].length).Sublist
          [.obj [("property", .str "b"), ("x", .num 1)], .obj [("property", .str "zz")]]
      ∧ ∀ (i : Nat) (p : Val),
          [Val.obj [("property", .str "a")], Val.obj [("property", .str "b")]][i]? = some p →
          (∀ m ∈ [Val.obj [("property", .str "b"), ("x", .num 1)],
            Val.obj [("property", .str "zz")]], matchesKey m (keyOf p) = false) →
          r[i]? = some p :=
  ⟨rfl, by decide, by decide,
    c13_base_order_kept defaults 0 [.obj [("property", .str "a")], .obj [("property", .str "b")]]
      [.obj [("property", .str "b"), ("x", .num 1)], .obj [("property", .str "zz")]]
      .undefined rfl (by decide) (by decide)⟩

theorem compact_map_some (l : List Val) (h : ∀ x ∈ l, truthy x = true) :
    Sparse.compact (l.map some) = l := by
  induction l with
  | nil => rfl
  | cons x xs ih =>
    have hx := h x (List.mem_cons_self _ _)
    have hxs := ih (fun y hy => h y (List.mem_cons_of_mem _ hy))
    simp only [Sparse.compact] at hxs ⊢
    simp [List.filterMap_cons, hx, hxs]

theorem extendProperties_nil_base_any (self : Sector) (fuel : Nat) (moProps : List Val)
    (ex : Val) :
    extendProperties self fuel [] (some moProps) ex =
      .ok (if truthy ex then Sparse.compact (moProps.map some) else moProps) := by
  cases fuel <;>
    simp [extendProperties, extendWith, outer_zero, bind, Except.bind, pure, Except.pure]

theorem extendProperties_nil_over (self : Sector) (fuel : Nat) (props : List Val) (ex : Val)
    (hex : truthy ex = false) :
    extendProperties self fuel props (some []) ex = .ok props := by
  cases fuel <;>
    simp [extendProperties, extendWith, outer, bind, Except.bind, pure, Except.pure, hex]

theorem initSector_no_builtins (tbl : CaseTable) (factory : PropertyFactory) (fuel : Nat)
    (prp : Sector) (hb : buildProperties factory prp.buildProps = []) :
    (initSector tbl factory fuel prp).map Sector.getProperties =
      .ok (prp.propertyList.map (checkExtend factory)) := by
  have hpl : ∀ s : String, ({ prp with id := s } : Sector).propertyList = prp.propertyList :=
    fun _ => rfl
  simp only [initSector, hb, truthy_arr, Bool.not_true, Bool.false_eq_true, if_false,
    extendProperties_nil_base, bind, Except.bind, pure, Except.pure, Except.map,
    Sector.getProperties]
  split <;> simp [hpl]

/-- C18: With an empty base list, `extendProperties([], moProps, ex)` returns exactly the
entries of `moProps`, unmodified and in the same order, for every value of the flag, in the
default mode for any entries and in the isolated mode for entries that are objects; this is
what construction runs when no built-in is requested, so the child collection then receives
`checkExtend` of each literal entry. And `extendProperties(props, [])` in the default mode
returns `props` unchanged. -/
theorem c18_empty_base_or_override (self : Sector) (fuel : Nat) (ex : Val) :
    (∀ moProps : List Val, (∀ m ∈ moProps, isObj m = true) →
      extendProperties self fuel [] (some moProps) ex = .ok moProps)
    ∧ (∀ moProps : List Val, truthy ex = false →
      extendProperties self fuel [] (some moProps) ex = .ok moProps)
    ∧ (∀ props : List Val, truthy ex = false →
      extendProperties self fuel props (some []) ex = .ok props)
    ∧ (∀ tbl factory prp, buildProperties factory prp.buildProps = [] →
      (initSector tbl factory fuel prp).map Sector.getProperties =
        .ok (prp.propertyList.map (checkExtend factory))) := by
  refine ⟨?_, ?_, ?_, ?_⟩
  · intro moProps hobj
    rw [extendProperties_nil_base_any,
      compact_map_some moProps (fun x hx => truthy_of_isObj (hobj x hx))]
    simp
  · intro moProps hex
    rw [extendProperties_nil_base_any]
    simp [hex]
  · intro props hex
    exact extendProperties_nil_over self fuel props ex hex
  · intro tbl factory prp hb
    exact initSector_no_builtins tbl factory fuel prp hb

/-- C18, instance: two descriptor objects merged onto the empty base list in isolated mode
with the flag unset. -/
theorem c18_empty_base_or_override_witness :
    (∀ m ∈ [Val.obj [("property", .str "a")], Val.obj [("id", .str "b")]], isObj m = true)
    ∧ extendProperties { defaults with extendBuilded := .num 0 } 0 []
        (some [.obj [("property", .str "a")], .obj [("id", .str "b")]]) (.num 1)
      = .ok [.obj [("property", .str "a")], .obj [("id", .str "b")]] :=
  ⟨by decide,
    (c18_empty_base_or_override { defaults with extendBuilded := .num 0 } 0 (.num 1)).1
      [.obj [("property", .str "a")], .obj [("id", .str "b")]] (by decide)⟩

/-- C19: For an object without an `extend` key or with a falsy one, and for `null` and
`undefined`, `checkExtend` returns its argument itself, whatever the factory is. -/
theorem c19_checkExtend_identity (factory : PropertyFactory) :
    (∀ fs : Fields, truthy ((own fs "extend").getD .undefined) = false →
      checkExtend factory (.obj fs) = .obj fs)
    ∧ checkExtend factory .null = .null
    ∧ checkExtend factory .undefined = .undefined := by
  refine ⟨?_, rfl, rfl⟩
  intro fs h
  simp [checkExtend, ownFields, h]

/-- C19, instance: the descriptor `{property:"color", extend:""}`. -/
theorem c19_checkExtend_identity_witness :
    truthy ((own [("property", Val.str "color"), ("extend", Val.str "")] "extend").getD
      .undefined) = false
    ∧ checkExtend ⟨fun _ => [[("property", .str "float")]]⟩
        (.obj [("property", .str "color"), ("extend", .str "")])
      = .obj [("property", .str "color"), ("extend", .str "")] :=
  ⟨rfl, (c19_checkExtend_identity ⟨fun _ => [[("property", .str "float")]]⟩).1
    [("property", .str "color"), ("extend", .str "")] rfl⟩

theorem extendProperties_none (self : Sector) (fuel : Nat) (props : List Val) (ex : Val) :
    extendProperties self fuel props none ex =
      extendProperties self fuel props (some self.propertyList) ex := by
  cases fuel <;> rfl

theorem initSector_ok_of_desc (tbl : CaseTable) (factory : PropertyFactory) (fuel : Nat)
    (prp : Sector)
    (hb : ∀ p ∈ buildProperties factory prp.buildProps, isDesc (fuel + 1) p = true)
    (hm : ∀ m ∈ prp.propertyList, isDesc (fuel + 1) m = true) :
    ∃ s, initSector tbl factory fuel prp = .ok s := by
  have hpl : ∀ s : String, ({ prp with id := s } : Sector).propertyList = prp.propertyList :=
    fun _ => rfl
  simp only [initSector, truthy_arr, Bool.not_true, Bool.false_eq_true, if_false, bind,
    Except.bind, pure, Except.pure, extendProperties_none]
  split
  · rename_i e he
    exfalso
    split at he
    · obtain ⟨_, _, _, heq, _⟩ := extendProperties_spec
        { prp with id := toLowerCase tbl (replaceSpaces (if truthy (.str prp.name) = true
          then prp.name else "")) } fuel (buildProperties factory prp.buildProps)
        prp.propertyList hb hm
      rw [hpl, heq] at he
      exact absurd he (by simp)
    · obtain ⟨_, _, _, heq, _⟩ := extendProperties_spec prp fuel
        (buildProperties factory prp.buildProps) prp.propertyList hb hm
      rw [heq] at he
      exact absurd he (by simp)
  · exact ⟨_, rfl⟩

/-- C20: Every sector returned by construction has the name of its specification, and has
the identifier of its specification when that identifier is non-empty, whatever the name is.
Construction does return when no built-in is requested, and when the built-in templates and
the literal entries are descriptor objects. -/
theorem c20_id_and_name_kept (tbl : CaseTable) (factory : PropertyFactory) (fuel : Nat)
    (prp : Sector) :
    (∀ s, initSector tbl factory fuel prp = .ok s →
      s.getName = prp.name ∧ (prp.id ≠ "" → s.getId = prp.id))
    ∧ (buildProperties factory prp.buildProps = [] →
        ∃ s, initSector tbl factory fuel prp = .ok s)
    ∧ ((∀ p ∈ buildProperties factory prp.buildProps, isDesc (fuel + 1) p = true) →
        (∀ m ∈ prp.propertyList, isDesc (fuel + 1) m = true) →
        ∃ s, initSector tbl factory fuel prp = .ok s) := by
  refine ⟨?_, initSector_ok_of_no_builtins tbl factory fuel prp,
    initSector_ok_of_desc tbl factory fuel prp⟩
  intro s hs
  obtain ⟨h1, h2⟩ := initSector_id tbl factory fuel prp s hs
  refine ⟨h2, fun hne => ?_⟩
  simp only [hne, if_false] at h1
  exact h1

/-- C20, instance: the specification `{id:"typo", name:"My Sector", buildProps:["float"],
properties:[{property:"float", value:9}]}` with a factory that builds one template. -/
theorem c20_id_and_name_kept_witness :
    (∀ p ∈ buildProperties ⟨fun _ => [[("property", .str "float")]]⟩ (.arr [.str "float"]),
      isDesc (0 + 1) p = true)
    ∧ (∀ m ∈ ({ defaults with
          id := "typo", name := "My Sector", buildProps := .arr [.str "float"],
          properties := .array [.obj [("property", .str "float"), ("value", .num 9)]] }
          : Sector).propertyList, isDesc (0 + 1) m = true)
    ∧ ∃ s, initSector (fun _ c _ => (c, [])) ⟨fun _ => [[("property", .str "float")]]⟩ 0
        { defaults with
          id := "typo", name := "My Sector", buildProps := .arr [.str "float"],
          properties := .array [.obj [("property", .str "float"), ("value", .num 9)]] } = .ok s :=
  ⟨by decide, by decide,
    (c20_id_and_name_kept (fun _ c _ => (c, [])) ⟨fun _ => [[("property", .str "float")]]⟩ 0
      { defaults with
          id := "typo", name := "My Sector", buildProps := .arr [.str "float"],
          properties := .array [.obj [("property", .str "float"), ("value", .num 9)]] }).2.2
      (by decide) (by decide)⟩

/-! ## One override entry -/

theorem scan_content {recur : List Val → List Val → Except Err (List Val)} {ext : Val} :
    ∀ (todo : List Val) (j : Nat) (m : Val) (iso : Sparse) (found : Bool) (res : ScanState),
      (∀ p ∈ todo, ∃ fs, p = .obj fs) → (∃ gs, m = .obj gs) →
      scan recur ext j todo m iso found = .ok res →
      ∀ (t : Nat) (p : Val), todo[t]? = some p → matchesKey m (keyOf p) = true →
        ∃ m1, Upd m m1 ∧ (res.1 : List Val)[t]? = some (mergeEntry ext p m1) := by
  intro todo
  induction todo with
  | nil =>
    intro j m iso found res _ _ _ t p ht
    simp at ht
  | cons q rest ih =>
    intro j m iso found res htodo hm h t p ht hmatch
    obtain ⟨fs, rfl⟩ := htodo q (List.mem_cons_self _ _)
    obtain ⟨gs, rfl⟩ := hm
    have hrest : ∀ x ∈ rest, ∃ fs, x = .obj fs :=
      fun x hx => htodo x (List.mem_cons_of_mem _ hx)
    rw [scan_cons_obj] at h
    by_cases hit : matchesKey (.obj gs) (peek (.obj fs) "property") = true
    · simp only [hit, if_true] at h
      cases hmn : mergeNested recur (.obj gs) (.obj fs) with
      | error e => rw [hmn] at h; simp [Except.bind] at h
      | ok m1 =>
        rw [hmn] at h
        simp only [Except.bind] at h
        have hu : Upd (.obj gs) m1 := mergeNested_upd recur gs fs m1 hmn
        cases hs : scan recur ext (j + 1) rest m1
            (iso.setAt j (mergeEntry ext (.obj fs) m1)) true with
        | error e => rw [hs] at h; simp [Except.map] at h
        | ok st =>
          rw [hs] at h
          simp only [Except.map] at h
          injection h with h
          subst h
          cases t with
          | zero =>
            simp only [List.getElem?_cons_zero, Option.some.injEq] at ht
            subst ht
            exact ⟨m1, hu, by simp⟩
          | succ t =>
            simp only [List.getElem?_cons_succ] at ht ⊢
            obtain ⟨m2, hu2, h2⟩ := ih _ _ _ _ st hrest (hu.isObj ⟨gs, rfl⟩) hs t p ht
              (by rw [hu.matchesKey]; exact hmatch)
            exact ⟨m2, hu.trans hu2, h2⟩
    · simp only [hit] at h
      cases hs : scan recur ext (j + 1) rest (.obj gs) iso found with
      | error e => rw [hs] at h; simp [Except.map] at h
      | ok st =>
        rw [hs] at h
        simp only [Except.map] at h
        injection h with h
        subst h
        cases t with
        | zero =>
          simp only [List.getElem?_cons_zero, Option.some.injEq] at ht
          subst ht
          exact absurd hmatch hit
        | succ t =>
          simp only [List.getElem?_cons_succ] at ht ⊢
          exact ih _ _ _ _ st hrest ⟨gs, rfl⟩ hs t p ht hmatch

theorem mergeNested_flat (recur : List Val → List Val → Except Err (List Val)) (gs fs : Fields)
    (h : hasNested (.obj gs) = false) : mergeNested recur (.obj gs) (.obj fs) = .ok (.obj gs) := by
  rw [mergeNested_obj]
  simp [h]

theorem scan_flat {recur : List Val → List Val → Except Err (List Val)} {ext : Val} :
    ∀ (todo : List Val) (j : Nat) (m : Val) (iso : Sparse) (found : Bool) (res : ScanState),
      (∀ p ∈ todo, ∃ fs, p = .obj fs) → (∃ gs, m = .obj gs) → hasNested m = false →
      scan recur ext j todo m iso found = .ok res →
      res.2.1 = m ∧
      ∀ (t : Nat) (p : Val), todo[t]? = some p → matchesKey m (keyOf p) = true →
        (res.1 : List Val)[t]? = some (mergeEntry ext p m) := by
  intro todo
  induction todo with
  | nil =>
    intro j m iso found res _ _ _ h
    simp only [scan] at h
    injection h with h
    subst h
    exact ⟨rfl, by simp⟩
  | cons q rest ih =>
    intro j m iso found res htodo hm hflat h
    obtain ⟨fs, rfl⟩ := htodo q (List.mem_cons_self _ _)
    obtain ⟨gs, rfl⟩ := hm
    have hrest : ∀ x ∈ rest, ∃ fs, x = .obj fs :=
      fun x hx => htodo x (List.mem_cons_of_mem _ hx)
    rw [scan_cons_obj] at h
    by_cases hit : matchesKey (.obj gs) (peek (.obj fs) "property") = true
    · simp only [hit, if_true, mergeNested_flat recur gs fs hflat, Except.bind] at h
      cases hs : scan recur ext (j + 1) rest (.obj gs)
          (iso.setAt j (mergeEntry ext (.obj fs) (.obj gs))) true with
      | error e => rw [hs] at h; simp [Except.map] at h
      | ok st =>
        rw [hs] at h
        simp only [Except.map] at h
        injection h with h
        subst h
        obtain ⟨i1, i2⟩ := ih _ _ _ _ st hrest ⟨gs, rfl⟩ hflat hs
        refine ⟨i1, ?_⟩
        intro t p ht hmatch
        cases t with
        | zero =>
          simp only [List.getElem?_cons_zero, Option.some.injEq] at ht
          subst ht
          simp
        | succ t =>
          simp only [List.getElem?_cons_succ] at ht ⊢
          exact i2 t p ht hmatch
    · simp only [hit] at h
      cases hs : scan recur ext (j + 1) rest (.obj gs) iso found with
      | error e => rw [hs] at h; simp [Except.map] at h
      | ok st =>
        rw [hs] at h
        simp only [Except.map] at h
        injection h with h
        subst h
        obtain ⟨i1, i2⟩ := ih _ _ _ _ st hrest ⟨gs, rfl⟩ hflat hs
        refine ⟨i1, ?_⟩
        intro t p ht hmatch
        cases t with
        | zero =>
          simp only [List.getElem?_cons_zero, Option.some.injEq] at ht
          subst ht
          exact absurd hmatch hit
        | succ t =>
          simp only [List.getElem?_cons_succ] at ht ⊢
          exact i2 t p ht hmatch

theorem scan_no_match {recur : List Val → List Val → Except Err (List Val)} {ext : Val} :
    ∀ (todo : List Val) (j : Nat) (gs : Fields) (iso : Sparse) (found : Bool),
      (∀ p ∈ todo, ∃ fs, p = .obj fs) →
      (∀ p ∈ todo, matchesKey (.obj gs) (keyOf p) = false) →
      scan recur ext j todo (.obj gs) iso found = .ok (todo, .obj gs, iso, found) := by
  intro todo
  induction todo with
  | nil => intro j gs iso found _ _; simp [scan]
  | cons q rest ih =>
    intro j gs iso found htodo hno
    obtain ⟨fs, rfl⟩ := htodo q (List.mem_cons_self _ _)
    have hq : matchesKey (.obj gs) (peek (.obj fs) "property") = false :=
      hno _ (List.mem_cons_self _ _)
    rw [scan_cons_obj, ih (j + 1) gs iso found
      (fun x hx => htodo x (List.mem_cons_of_mem _ hx))
      (fun x hx => hno x (List.mem_cons_of_mem _ hx))]
    simp [hq, Except.map]

theorem scan_unique {recur : List Val → List Val → Except Err (List Val)} {ext : Val} :
    ∀ (pre : List Val) (j : Nat) (gs fs : Fields) (post : List Val) (iso : Sparse)
      (found : Bool) (res : ScanState),
      (∀ x ∈ pre, ∃ hs, x = .obj hs) → (∀ x ∈ post, ∃ hs, x = .obj hs) →
      (∀ x ∈ pre, matchesKey (.obj gs) (keyOf x) = false) →
      (∀ x ∈ post, matchesKey (.obj gs) (keyOf x) = false) →
      matchesKey (.obj gs) (keyOf (.obj fs)) = true →
      scan recur ext j (pre ++ .obj fs :: post) (.obj gs) iso found = .ok res →
      ∃ m1, mergeNested recur (.obj gs) (.obj fs) = .ok m1 ∧
        res.1 = pre ++ mergeEntry ext (.obj fs) m1 :: post ∧ res.2.2.2 = true := by
  intro pre
  induction pre with
  | nil =>
    intro j gs fs post iso found res _ hpost _ hnpost hmatch h
    have hit : matchesKey (.obj gs) (peek (.obj fs) "property") = true := hmatch
    simp only [List.nil_append] at h ⊢
    rw [scan_cons_obj] at h
    simp only [hit, if_true] at h
    cases hmn : mergeNested recur (.obj gs) (.obj fs) with
    | error e => rw [hmn] at h; simp [Except.bind] at h
    | ok m1 =>
      rw [hmn] at h
      simp only [Except.bind] at h
      have hu : Upd (.obj gs) m1 := mergeNested_upd recur gs fs m1 hmn
      obtain ⟨gs1, rfl⟩ := hu.isObj ⟨gs, rfl⟩
      rw [scan_no_match post (j + 1) gs1 _ true hpost
        (fun x hx => by rw [hu.matchesKey]; exact hnpost x hx)] at h
      simp only [Except.map] at h
      injection h with h
      subst h
      exact ⟨_, rfl, rfl, rfl⟩
  | cons q rest ih =>
    intro j gs fs post iso found res hpre hpost hnpre hnpost hmatch h
    obtain ⟨qs, rfl⟩ := hpre q (List.mem_cons_self _ _)
    have hq : matchesKey (.obj gs) (peek (.obj qs) "property") = false :=
      hnpre _ (List.mem_cons_self _ _)
    simp only [List.cons_append] at h ⊢
    rw [scan_cons_obj] at h
    simp only [hq, Bool.false_eq_true, if_false] at h
    cases hs : scan recur ext (j + 1) (rest ++ .obj fs :: post) (.obj gs) iso found with
    | error e => rw [hs] at h; simp [Except.map] at h
    | ok st =>
      rw [hs] at h
      simp only [Except.map] at h
      injection h with h
      subst h
      obtain ⟨m1, h1, h2, h3⟩ := ih (j + 1) gs fs post iso found st
        (fun x hx => hpre x (List.mem_cons_of_mem _ hx)) hpost
        (fun x hx => hnpre x (List.mem_cons_of_mem _ hx)) hnpost hmatch hs
      exact ⟨m1, h1, by simp [h2], h3⟩

theorem outer_nil (recur : List Val → List Val → Except Err (List Val)) (ext : Val) (pLen : Nat)
    (props : List Val) (iso : Sparse) :
    outer recur ext pLen [] props iso = .ok (props, iso) := by
  simp [outer]

theorem extendProperties_single (self : Sector) (fuel : Nat) (props : List Val) (m ex : Val)
    (hex : truthy ex = false)
    (hp : ∀ p ∈ props, isDesc (fuel + 1) p = true) (hm : isDesc (fuel + 1) m = true) :
    ∃ res, scan (recurOf self fuel) self.extendBuilded 0 props m [] false = .ok res
      ∧ ScanFacts fuel self.extendBuilded 0 props m [] false res
      ∧ extendProperties self fuel props (some [m]) ex =
          .ok (if res.2.2.2 then res.1 else res.1 ++ [res.2.1]) := by
  obtain ⟨res, hres, F⟩ :=
    scan_spec (recSpec_recurOf self fuel) self.extendBuilded props 0 m [] false hp hm
  refine ⟨res, hres, F, ?_⟩
  rw [extendProperties_eq]
  have h1 := outer_cons_eq (recurOf self fuel) self.extendBuilded m [] props [] [] res hres
  simp only [List.append_nil, outer_nil] at h1
  simp only [extendWith, h1, bind, Except.bind, pure, Except.pure]
  cases res.2.2.2 <;> simp [hex]

/-! ## The match rule -/

theorem looseEq_str (s t : String) : looseEq (.str s) (.str t) = true ↔ s = t := by
  simp [looseEq]

/-- C14: The inner loop treats an override entry `m` as matching a base entry `p` exactly
when `m.property == p.property` or `m.id == p.property`: merged with the one-entry base list
`[p]`, `m` is merged into `p` (and not appended) when the test holds, and `p` is kept and `m`
appended when it fails. Two strings are equal for the test only when they are the same
string, so an override whose `property` (and `id`, if any) differs from the key of `p`, be
it only in letter case, is appended. -/
theorem c14_match_rule (self : Sector) (fuel : Nat) (p m ex : Val) (hex : truthy ex = false)
    (hp : isDesc (fuel + 1) p = true) (hm : isDesc (fuel + 1) m = true) :
    matchTest m p = .ok (looseEq (peek m "property") (peek p "property")
      || looseEq (peek m "id") (peek p "property"))
    ∧ (∃ r, extendProperties self fuel [p] (some [m]) ex = .ok r
        ∧ ((looseEq (peek m "property") (peek p "property")
              || looseEq (peek m "id") (peek p "property")) = true →
            ∃ m1, Upd m m1 ∧ r = [mergeEntry self.extendBuilded p m1])
        ∧ ((looseEq (peek m "property") (peek p "property")
              || looseEq (peek m "id") (peek p "property")) = false → r = [p, m]))
    ∧ (∀ s t : String, looseEq (.str s) (.str t) = true ↔ s = t)
    ∧ (∀ s t : String, peek p "property" = .str s → peek m "property" = .str t → s ≠ t →
        (peek m "id" = .undefined ∨ ∃ u, peek m "id" = .str u ∧ u ≠ s) →
        extendProperties self fuel [p] (some [m]) ex = .ok [p, m]) := by
  obtain ⟨res, hres, F, heq⟩ :=
    extendProperties_single self fuel [p] m ex hex
      (fun q hq => by rw [List.mem_singleton.1 hq]; exact hp) hm
  have hfound : res.2.2.2 = matchesKey m (keyOf p) := by
    rw [F.found_eq]; simp
  have hlen : res.1.length = 1 := F.length_eq
  obtain ⟨gs, hgs⟩ := isDesc_isObj hm
  obtain ⟨fs, hfs⟩ := isDesc_isObj hp
  have hyes : matchesKey m (keyOf p) = true →
      ∃ m1, Upd m m1 ∧ extendProperties self fuel [p] (some [m]) ex
        = .ok [mergeEntry self.extendBuilded p m1] := by
    intro hmatch
    obtain ⟨m1, hu, h1⟩ := scan_content [p] 0 m [] false res
      (fun q hq => by rw [List.mem_singleton.1 hq]; exact ⟨fs, hfs⟩) ⟨gs, hgs⟩ hres 0 p rfl hmatch
    refine ⟨m1, hu, ?_⟩
    rw [heq, hfound, hmatch]
    simp only [if_true]
    cases hr : res.1 with
    | nil => rw [hr] at hlen; simp at hlen
    | cons a rest =>
      rw [hr] at hlen h1
      cases rest with
      | nil =>
        simp only [List.getElem?_cons_zero, Option.some.injEq] at h1
        rw [h1]
      | cons b rest' => simp at hlen
  have hno : matchesKey m (keyOf p) = false →
      extendProperties self fuel [p] (some [m]) ex = .ok [p, m] := by
    intro hmatch
    have h1 := F.kept 0 p rfl hmatch
    have h2 := (F.no_match (by simp [hmatch])).1
    rw [heq, hfound, hmatch, h2]
    simp only [Bool.false_eq_true, if_false]
    cases hr : res.1 with
    | nil => rw [hr] at hlen; simp at hlen
    | cons a rest =>
      rw [hr] at hlen h1
      cases rest with
      | nil =>
        simp only [List.getElem?_cons_zero, Option.some.injEq] at h1
        rw [h1]; rfl
      | cons b rest' => simp at hlen
  refine ⟨?_, ?_, looseEq_str, ?_⟩
  · rw [hgs, hfs, matchTest_obj]; rfl
  · by_cases hmatch : matchesKey m (keyOf p) = true
    · obtain ⟨m1, hu, h1⟩ := hyes hmatch
      refine ⟨_, h1, fun _ => ⟨m1, hu, rfl⟩, fun hc => ?_⟩
      have : matchesKey m (keyOf p) = false := hc
      rw [hmatch] at this
      exact absurd this (by simp)
    · have hmatch' : matchesKey m (keyOf p) = false := by simpa using hmatch
      refine ⟨_, hno hmatch', fun hc => ?_, fun _ => rfl⟩
      exact absurd (show matchesKey m (keyOf p) = true from hc) hmatch
  · intro s t hs ht hne hid
    apply hno
    have hst : (t == s) = false := by
      simp only [beq_eq_false_iff_ne, ne_eq]
      exact fun h => hne h.symm
    simp only [matchesKey, keyOf, hs, ht]
    rcases hid with h | ⟨u, h, hu⟩
    · simp [h, looseEq, hst]
    · have hus : (u == s) = false := by
        simp only [beq_eq_false_iff_ne, ne_eq]; exact hu
      simp [h, looseEq, hst, hus]

/-- C14, instance: the base entry "float" and the override "Float". -/
theorem c14_match_rule_witness :
    truthy .undefined = false
    ∧ isDesc (0 + 1) (.obj [("property", .str "float")]) = true
    ∧ isDesc (0 + 1) (.obj [("property", .str "Float"), ("value", .num 9)]) = true
    ∧ extendProperties defaults 0 [.obj [("property", .str "float")]]
        (some [.obj [("property", .str "Float"), ("value", .num 9)]]) .undefined
      = .ok [.obj [("property", .str "float")], .obj [("property", .str "Float"), ("value", .num 9)]] :=
  ⟨rfl, by decide, by decide,
    (c14_match_rule defaults 0 (.obj [("property", .str "float")])
      (.obj [("property", .str "Float"), ("value", .num 9)]) .undefined rfl (by decide)
      (by decide)).2.2.2 "float" "Float" rfl rfl (by decide) (Or.inl rfl)⟩

/-! ## A single matching override entry -/

theorem outer_append (recur : List Val → List Val → Except Err (List Val)) (ext : Val)
    (pLen : Nat) :
    ∀ (ms1 ms2 props : List Val) (iso : Sparse),
      outer recur ext pLen (ms1 ++ ms2) props iso =
        (outer recur ext pLen ms1 props iso).bind
          (fun r => outer recur ext pLen ms2 r.1 r.2) := by
  intro ms1
  induction ms1 with
  | nil => intro ms2 props iso; simp [outer, Except.bind]
  | cons m more ih =>
    intro ms2 props iso
    simp only [List.cons_append]
    rw [outer, outer]
    cases hs : scan recur ext 0 (List.take pLen props) m iso false with
    | error e => simp [bind, Except.bind]
    | ok st =>
      simp only [bind, Except.bind]
      split <;> exact ih _ _ _

theorem hasNested_of_no_properties {gs : Fields} (h : own gs "properties" = none) :
    hasNested (.obj gs) = false := by
  simp [hasNested, peek, getField, h]

theorem getElem?_append_of_some {l : List Val} {i : Nat} {x : Val} (h : l[i]? = some x)
    (l' : List Val) : (l ++ l')[i]? = some x := by
  have hi : i < l.length := by
    by_contra hc
    rw [List.getElem?_eq_none (Nat.le_of_not_lt hc)] at h
    simp at h
  rw [List.getElem?_append_left hi]; exact h

theorem extendProperties_one_match (self : Sector) (fuel : Nat) (props before after : List Val)
    (m ex : Val) (j : Nat) (p : Val) (hex : truthy ex = false)
    (hp : ∀ q ∈ props, isDesc (fuel + 1) q = true)
    (hb : ∀ b ∈ before, isDesc (fuel + 1) b = true) (hm : isDesc (fuel + 1) m = true)
    (ha : ∀ a ∈ after, isDesc (fuel + 1) a = true)
    (hj : props[j]? = some p)
    (hnb : ∀ b ∈ before, matchesKey b (keyOf p) = false)
    (hmatch : matchesKey m (keyOf p) = true)
    (hna : ∀ a ∈ after, matchesKey a (keyOf (mergeEntry self.extendBuilded p m)) = false)
    (hflat : own (ownFields m) "properties" = none) :
    ∃ r, extendProperties self fuel props (some (before ++ m :: after)) ex = .ok r
      ∧ r[j]? = some (mergeEntry self.extendBuilded p m) := by
  have hrec := recSpec_recurOf self fuel
  -- the overrides before `m`
  obtain ⟨base1, iso1, hout1, G1⟩ :=
    outer_spec hrec self.extendBuilded before props [] [] hp hb
  have hj1 : base1[j]? = some p :=
    G1.kept j p hj (touchedKey_of_no_match _ _ before hnb)
  -- the override `m`
  obtain ⟨res, hres, F⟩ := scan_spec hrec self.extendBuilded base1 0 m iso1 false G1.desc hm
  obtain ⟨gs, rfl⟩ := isDesc_isObj hm
  have hflat' : hasNested (.obj gs) = false := hasNested_of_no_properties hflat
  obtain ⟨_, hcont⟩ := scan_flat base1 0 (.obj gs) iso1 false res
    (fun q hq => isDesc_isObj (G1.desc q hq)) ⟨gs, rfl⟩ hflat' hres
  have hj2 : res.1[j]? = some (mergeEntry self.extendBuilded p (.obj gs)) :=
    hcont j p hj1 hmatch
  have hfound : res.2.2.2 = true := by
    rw [F.found_eq]
    simp only [Bool.false_or, List.any_eq_true]
    exact ⟨p, List.getElem?_mem hj1, hmatch⟩
  have hstep := outer_cons_eq (recurOf self fuel) self.extendBuilded (.obj gs) after base1
    (unmatched self.extendBuilded (props.map keyOf) before) iso1 res hres
  simp only [hfound, if_true] at hstep
  -- the overrides after `m`
  obtain ⟨base3, iso3, hout3, G3⟩ := outer_spec hrec self.extendBuilded after res.1
    (unmatched self.extendBuilded (props.map keyOf) before) res.2.2.1 F.desc ha
  have hj3 : base3[j]? = some (mergeEntry self.extendBuilded p (.obj gs)) :=
    G3.kept j _ hj2 (touchedKey_of_no_match _ _ after hna)
  refine ⟨base3 ++ unmatched self.extendBuilded (props.map keyOf) before
    ++ unmatched self.extendBuilded (res.1.map keyOf) after, ?_, ?_⟩
  · rw [extendProperties_eq]
    simp only [extendWith, outer_append, bind, pure, Except.pure]
    simp only [List.append_nil] at hout1
    rw [hout1]
    simp only [Except.bind]
    rw [← G1.length_eq, hstep, ← F.length_eq, hout3]
    simp [hex]
  · rw [List.append_assoc]
    exact getElem?_append_of_some hj3 _

/-- C15 (as stated, refuted): with base `[{property:"a", x:1}]` and the overrides
`[{id:"a", property:"b"}, {property:"b", id:"c"}]`, the first override is the only one that
matches the base entry as handed in, and it has no nested list; but its merge gives the entry
the key "b", the second override then matches too, and the result has `id` "c", not the
first override's "a". -/
theorem c15_static_counterexample :
    extendProperties defaults 0 [.obj [("property", .str "a"), ("x", .num 1)]]
        (some [.obj [("id", .str "a"), ("property", .str "b")],
          .obj [("property", .str "b"), ("id", .str "c")]]) .undefined
      = .ok [.obj [("property", .str "b"), ("x", .num 1), ("id", .str "c")]]
    ∧ matchesKey (.obj [("id", .str "a"), ("property", .str "b")])
        (keyOf (.obj [("property", .str "a"), ("x", .num 1)])) = true
    ∧ matchesKey (.obj [("property", .str "b"), ("id", .str "c")])
        (keyOf (.obj [("property", .str "a"), ("x", .num 1)])) = false
    ∧ extend (.obj [("property", .str "a"), ("x", .num 1)])
        (.obj [("id", .str "a"), ("property", .str "b")])
      = .obj [("property", .str "b"), ("x", .num 1), ("id", .str "a")] := by
  refine ⟨?_, ?_, ?_, ?_⟩ <;> rfl

/-- C15 (amended): let `m` be an override entry without a `properties` key that is the only
one to match the entry at index `j` when its turn comes: no earlier override entry matches
the base entry `p` at `j`, `m` matches it, and no later override entry matches the merge
result (whose key may be `m`'s own `property`). Then in the default mode `result[j]` is, with
the `extendBuilded` flag truthy, the shallow merge of `p` and `m` (every field of `m` with
`m`'s value, every other field of `p` with `p`'s value), and with the flag falsy `m` itself. -/
theorem c15_single_match_merge (self : Sector) (fuel : Nat) (props before after : List Val)
    (m ex : Val) (j : Nat) (p : Val) (hex : truthy ex = false)
    (hp : ∀ q ∈ props, isDesc (fuel + 1) q = true)
    (hb : ∀ b ∈ before, isDesc (fuel + 1) b = true) (hm : isDesc (fuel + 1) m = true)
    (ha : ∀ a ∈ after, isDesc (fuel + 1) a = true)
    (hj : props[j]? = some p)
    (hnb : ∀ b ∈ before, matchesKey b (keyOf p) = false)
    (hmatch : matchesKey m (keyOf p) = true)
    (hna : ∀ a ∈ after, matchesKey a (keyOf (mergeEntry self.extendBuilded p m)) = false)
    (hflat : own (ownFields m) "properties" = none) :
    ∃ r e, extendProperties self fuel props (some (before ++ m :: after)) ex = .ok r
      ∧ r[j]? = some e
      ∧ (truthy self.extendBuilded = true →
          ∃ rs, e = .obj rs ∧ ∀ k,
            (∀ v, own (ownFields m) k = some v → own rs k = some v)
            ∧ (own (ownFields m) k = none → own rs k = own (ownFields p) k))
      ∧ (truthy self.extendBuilded = false → e = m) := by
  obtain ⟨r, hr, hrj⟩ := extendProperties_one_match self fuel props before after m ex j p hex
    hp hb hm ha hj hnb hmatch hna hflat
  obtain ⟨gs, rfl⟩ := isDesc_isObj hm
  obtain ⟨fs, rfl⟩ := isDesc_isObj (hp p (List.getElem?_mem hj))
  refine ⟨r, _, hr, hrj, ?_, ?_⟩
  · intro hext
    refine ⟨copyInto fs gs, by simp [mergeEntry, hext, extend], ?_⟩
    intro k
    simp only [ownFields, own_copyInto]
    constructor
    · intro v hv
      simp [hv]
    · intro hnone
      simp [hnone]
  · intro hext
    simp [mergeEntry, hext]

/-- C15 (amended), instance: the base `[{property:"a", x:1}, {property:"b"}]` with the
overrides `[{property:"zz"}, {property:"a", y:2}, {property:"b", z:3}]`, at index 0. -/
theorem c15_single_match_merge_witness :
    truthy .undefined = false
    ∧ (∀ q ∈ [Val.obj [("property", .str "a"), ("x", .num 1)], Val.obj [("property", .str "b")]],
        isDesc (0 + 1) q = true)
    ∧ (∀ b ∈ [Val.obj [("property", .str "zz")]], isDesc (0 + 1) b = true)
    ∧ isDesc (0 + 1) (.obj [("property", .str "a"), ("y", .num 2)]) = true
    ∧ (∀ a ∈ [Val.obj [("property", .str "b"), ("z", .num 3)]], isDesc (0 + 1) a = true)
    ∧ [Val.obj [("property", .str "a"), ("x", .num 1)], Val.obj [("property", .str "b")]][0]?
        = some (.obj [("property", .str "a"), ("x", .num 1)])
    ∧ (∀ b ∈ [Val.obj [("property", .str "zz")]],
        matchesKey b (keyOf (.obj [("property", .str "a"), ("x", .num 1)])) = false)
    ∧ matchesKey (.obj [("property", .str "a"), ("y", .num 2)])
        (keyOf (.obj [("property", .str "a"), ("x", .num 1)])) = true
    ∧ (∀ a ∈ [Val.obj [("property", .str "b"), ("z", .num 3)]],
        matchesKey a (keyOf (mergeEntry defaults.extendBuilded
          (.obj [("property", .str "a"), ("x", .num 1)])
          (.obj [("property", .str "a"), ("y", .num 2)]))) = false)
    ∧ own (ownFields (.obj [("property", .str "a"), ("y", .num 2)])) "properties" = none
    ∧ ∃ r e, extendProperties defaults 0
          [.obj [("property", .str "a"), ("x", .num 1)], .obj [("property", .str "b")]]
          (some ([.obj [("property", .str "zz")]] ++ .obj [("property", .str "a"), ("y", .num 2)]
            :: [.obj [("property", .str "b"), ("z", .num 3)]])) .undefined = .ok r
      ∧ r[0]? = some e
      ∧ (truthy defaults.extendBuilded = true →
          ∃ rs, e = .obj rs ∧ ∀ k,
            (∀ v, own (ownFields (.obj [("property", .str "a"), ("y", .num 2)])) k = some v →
              own rs k = some v)
            ∧ (own (ownFields (.obj [("property", .str "a"), ("y", .num 2)])) k = none →
              own rs k = own (ownFields (.obj [("property", .str "a"), ("x", .num 1)])) k))
      ∧ (truthy defaults.extendBuilded = false →
          e = .obj [("property", .str "a"), ("y", .num 2)]) :=
  ⟨rfl, by decide, by decide, by decide, by decide, rfl, by decide, by decide, by decide, rfl,
    c15_single_match_merge defaults 0
      [.obj [("property", .str "a"), ("x", .num 1)], .obj [("property", .str "b")]]
      [.obj [("property", .str "zz")]] [.obj [("property", .str "b"), ("z", .num 3)]]
      (.obj [("property", .str "a"), ("y", .num 2)]) .undefined 0
      (.obj [("property", .str "a"), ("x", .num 1)]) rfl (by decide) (by decide) (by decide)
      (by decide) rfl (by decide) (by decide) (by decide) rfl⟩

/-! ## Nested lists -/

theorem peek_mergeEntry_properties (ext : Val) (fs gs : Fields) (v : Val)
    (h : own gs "properties" = some v) :
    peek (mergeEntry ext (.obj fs) (.obj gs)) "properties" = v := by
  unfold mergeEntry
  split
  · simp [extend, peek, getField, own_copyInto, h]
  · simp [peek, getField, h]

/-- C16 (as stated, refuted): the base entry "x" has the nested entries "a" and "b", the
override "x" has the nested entry "a" with `v: 1`. The nested list of the result holds "a"
alone, whereas the default-mode merge of the two nested lists holds "a" and "b". -/
theorem c16_nested_counterexample :
    extendProperties defaults 1
        [.obj [("property", .str "x"),
          ("properties", .arr [.obj [("property", .str "a")], .obj [("property", .str "b")]])]]
        (some [.obj [("property", .str "x"),
          ("properties", .arr [.obj [("property", .str "a"), ("v", .num 1)]])]]) .undefined
      = .ok [.obj [("property", .str "x"),
          ("properties", .arr [.obj [("property", .str "a"), ("v", .num 1)]])]]
    ∧ extendProperties defaults 0
        [.obj [("property", .str "a")], .obj [("property", .str "b")]]
        (some [.obj [("property", .str "a"), ("v", .num 1)]]) .undefined
      = .ok [.obj [("property", .str "a"), ("v", .num 1)], .obj [("property", .str "b")]] := by
  constructor <;> rfl

/-- C16 (amended): when the override entry `m`, which declares a non-empty nested list,
matches exactly one entry `p` of the base list, the entry that replaces `p` has as nested
list the merge of `p.properties || []` with `m.properties` in the isolated mode (third
argument `1`), not in the default mode; the other base entries are unchanged. -/
theorem c16_nested_isolated (self : Sector) (fuel : Nat) (pre post : List Val) (p m ex : Val)
    (hex : truthy ex = false)
    (hpre : ∀ x ∈ pre, isDesc (fuel + 2) x = true) (hpost : ∀ x ∈ post, isDesc (fuel + 2) x = true)
    (hp : isDesc (fuel + 2) p = true) (hm : isDesc (fuel + 2) m = true)
    (hnpre : ∀ x ∈ pre, matchesKey m (keyOf x) = false)
    (hnpost : ∀ x ∈ post, matchesKey m (keyOf x) = false)
    (hmatch : matchesKey m (keyOf p) = true) (hnested : hasNested m = true) :
    ∃ nested e,
      extendProperties self fuel (baseItems p) (some (items (peek m "properties"))) (.num 1)
        = .ok nested
      ∧ extendProperties self (fuel + 1) (pre ++ p :: post) (some [m]) ex
        = .ok (pre ++ e :: post)
      ∧ e = mergeEntry self.extendBuilded p (assign m "properties" (.arr nested))
      ∧ peek e "properties" = .arr nested := by
  have hall : ∀ x ∈ pre ++ p :: post, isDesc (fuel + 1 + 1) x = true := by
    intro x hx
    rcases List.mem_append.1 hx with h | h
    · exact hpre x h
    · rcases List.mem_cons.1 h with h | h
      · rw [h]; exact hp
      · exact hpost x h
  obtain ⟨res, hres, F, heq⟩ :=
    extendProperties_single self (fuel + 1) (pre ++ p :: post) m ex hex hall hm
  obtain ⟨gs, rfl⟩ := isDesc_isObj hm
  obtain ⟨fs, rfl⟩ := isDesc_isObj hp
  obtain ⟨m1, hm1, hr1, hfound⟩ := scan_unique pre 0 gs fs post [] false res
    (fun x hx => isDesc_isObj (hpre x hx)) (fun x hx => isDesc_isObj (hpost x hx))
    hnpre hnpost hmatch hres
  rw [mergeNested_obj] at hm1
  simp only [hnested, if_true] at hm1
  cases hrec : recurOf self (fuel + 1) (baseItems (.obj fs)) (items (peek (.obj gs) "properties")) with
  | error err => rw [hrec] at hm1; simp [Except.map] at hm1
  | ok nested =>
    rw [hrec] at hm1
    simp only [Except.map] at hm1
    injection hm1 with hm1
    refine ⟨nested, mergeEntry self.extendBuilded (.obj fs)
      (assign (.obj gs) "properties" (.arr nested)), hrec, ?_, rfl, ?_⟩
    · rw [heq, hfound, hr1, ← hm1]
      simp
    · simp only [assign]
      apply peek_mergeEntry_properties
      rw [own_setField]; simp

/-- C16 (amended), instance: the base entry "x" with the nested entries "a" and "b", the
override "x" with the nested entry "a". -/
theorem c16_nested_isolated_witness :
    truthy .undefined = false
    ∧ (∀ x ∈ ([] : List Val), isDesc (0 + 2) x = true)
    ∧ (∀ x ∈ ([] : List Val), isDesc (0 + 2) x = true)
    ∧ isDesc (0 + 2) (.obj [("property", .str "x"),
        ("properties", .arr [.obj [("property", .str "a")], .obj [("property", .str "b")]])])
        = true
    ∧ isDesc (0 + 2) (.obj [("property", .str "x"),
        ("properties", .arr [.obj [("property", .str "a"), ("v", .num 1)]])]) = true
    ∧ ∃ nested e,
      extendProperties defaults 0
          (baseItems (.obj [("property", .str "x"),
            ("properties", .arr [.obj [("property", .str "a")], .obj [("property", .str "b")]])]))
          (some (items (peek (.obj [("property", .str "x"),
            ("properties", .arr [.obj [("property", .str "a"), ("v", .num 1)]])]) "properties")))
          (.num 1) = .ok nested
      ∧ extendProperties defaults (0 + 1)
          ([] ++ .obj [("property", .str "x"),
            ("properties", .arr [.obj [("property", .str "a")], .obj [("property", .str "b")]])]
            :: [])
          (some [.obj [("property", .str "x"),
            ("properties", .arr [.obj [("property", .str "a"), ("v", .num 1)]])]]) .undefined
        = .ok ([] ++ e :: [])
      ∧ e = mergeEntry defaults.extendBuilded
          (.obj [("property", .str "x"),
            ("properties", .arr [.obj [("property", .str "a")], .obj [("property", .str "b")]])])
          (assign (.obj [("property", .str "x"),
            ("properties", .arr [.obj [("property", .str "a"), ("v", .num 1)]])]) "properties"
            (.arr nested))
      ∧ peek e "properties" = .arr nested :=
  ⟨rfl, by simp, by simp, by decide, by decide,
    c16_nested_isolated defaults 0 [] []
      (.obj [("property", .str "x"),
        ("properties", .arr [.obj [("property", .str "a")], .obj [("property", .str "b")]])])
      (.obj [("property", .str "x"),
        ("properties", .arr [.obj [("property", .str "a"), ("v", .num 1)]])]) .undefined
      rfl (by simp) (by simp) (by decide) (by decide) (by simp) (by simp) (by decide)
      (by decide)⟩

/-! ## Several matching base entries -/

/-- C17: For a one-entry override list `[m]` and a base list of descriptor objects in which
at least one entry matches `m`, the default mode returns a list of the length of the base
list (`m` is not appended); every position whose base entry matches `m` holds a merge
product of `m` (the shallow merge of the base entry with `m`, or `m` itself when the flag is
unset, `m` being taken up to its nested list), and every other position holds its base
entry. -/
theorem c17_merges_into_every_match (self : Sector) (fuel : Nat) (props : List Val) (m ex : Val)
    (hex : truthy ex = false)
    (hp : ∀ p ∈ props, isDesc (fuel + 1) p = true) (hm : isDesc (fuel + 1) m = true)
    (hsome : ∃ p ∈ props, matchesKey m (keyOf p) = true) :
    ∃ r, extendProperties self fuel props (some [m]) ex = .ok r
      ∧ r.length = props.length
      ∧ ∀ (i : Nat) (p : Val), props[i]? = some p →
          (matchesKey m (keyOf p) = true →
            ∃ m1, Upd m m1 ∧ r[i]? = some (mergeEntry self.extendBuilded p m1))
          ∧ (matchesKey m (keyOf p) = false → r[i]? = some p) := by
  obtain ⟨res, hres, F, heq⟩ := extendProperties_single self fuel props m ex hex hp hm
  have hfound : res.2.2.2 = true := by
    rw [F.found_eq]
    obtain ⟨p, hp1, hp2⟩ := hsome
    simp only [Bool.false_or, List.any_eq_true]
    exact ⟨p, hp1, hp2⟩
  refine ⟨res.1, ?_, F.length_eq, ?_⟩
  · rw [heq]; simp [hfound]
  · intro i p hi
    refine ⟨fun hmatch => ?_, fun hno => F.kept i p hi hno⟩
    exact scan_content props 0 m [] false res (fun q hq => isDesc_isObj (hp q hq))
      (isDesc_isObj hm) hres i p hi hmatch

/-- C17, instance: the override `{property:"a", x:1}` against the base `[a, b, a]`. -/
theorem c17_merges_into_every_match_witness :
    truthy .undefined = false
    ∧ (∀ p ∈ [Val.obj [("property", .str "a")], Val.obj [("property", .str "b")],
        Val.obj [("property", .str "a"), ("y", .num 2)]], isDesc (0 + 1) p = true)
    ∧ isDesc (0 + 1) (.obj [("property", .str "a"), ("x", .num 1)]) = true
    ∧ (∃ p ∈ [Val.obj [("property", .str "a")], Val.obj [("property", .str "b")],
        Val.obj [("property", .str "a"), ("y", .num 2)]],
        matchesKey (.obj [("property", .str "a"), ("x", .num 1)]) (keyOf p) = true)
    ∧ ∃ r, extendProperties defaults 0
          [.obj [("property", .str "a")], .obj [("property", .str "b")],
            .obj [("property", .str "a"), ("y", .num 2)]]
          (some [.obj [("property", .str "a"), ("x", .num 1)]]) .undefined = .ok r
      ∧ r.length = [Val.obj [("property", .str "a")], Val.obj [("property", .str "b")],
          Val.obj [("property", .str "a"), ("y", .num 2)]].length
      ∧ ∀ (i : Nat) (p : Val),
          [Val.obj [("property", .str "a")], Val.obj [("property", .str "b")],
            Val.obj [("property", .str "a"), ("y", .num 2)]][i]? = some p →
          (matchesKey (.obj [("property", .str "a"), ("x", .num 1)]) (keyOf p) = true →
            ∃ m1, Upd (.obj [("property", .str "a"), ("x", .num 1)]) m1
              ∧ r[i]? = some (mergeEntry defaults.extendBuilded p m1))
          ∧ (matchesKey (.obj [("property", .str "a"), ("x", .num 1)]) (keyOf p) = false →
            r[i]? = some p) :=
  ⟨rfl, by decide, by decide, ⟨.obj [("property", .str "a")], by simp, by decide⟩,
    c17_merges_into_every_match defaults 0
      [.obj [("property", .str "a")], .obj [("property", .str "b")],
        .obj [("property", .str "a"), ("y", .num 2)]]
      (.obj [("property", .str "a"), ("x", .num 1)]) .undefined rfl (by decide) (by decide)
      ⟨.obj [("property", .str "a")], by simp, by decide⟩⟩

end SectorModel
